import Mathlib

/-!
# UVM: a shallow embedding of the bytecode VM and its USM assembler

This file embeds the Rust sources of the UVM repository in Lean 4 and proves
properties of the embedded code.

Two generations of the code base coexist in the repository and are embedded in
two namespaces:

* `Usm` — the assembler/codec generation (`src/usm.rs` together with the
  `Display` implementations of `src/utils.rs`): the four-variant `Value`
  (`Float`/`Int`/`Uint`/`Null`), the eleven-opcode `InstructionKind`, the
  10-byte instruction codec, the tokenizer `parse`, the text→program
  translator `disassemble` and the program→text printer `assemble`.

* `Uvm` — the self-contained virtual machine of `src/main.rs`: two-variant
  `Value` (`Int`/`Null`), twelve opcodes, the fixed 1024-slot stack and
  program, `stack_push`/`stack_pop`, `execute_instruction` and the `execute`
  loop.

Modelling conventions:

* Rust machine integers are modelled as `Nat`/`Int` with explicit reduction
  modulo `2^64` exactly where the compiled (release-mode) code wraps;
  release-mode Rust is the reference semantics, so `+`/`-`/`*` on `isize`
  wrap, while `/` panics on `isize::MIN / -1` in every profile.
* A Rust `panic!` / arithmetic abort / out-of-bounds index is a process
  abort, not a recoverable error; it is modelled by the `crash` result (or
  `none` for `Usm.deserialize`, whose Rust signature has no error channel).
* Strings are modelled as `List Char`; `str::contains` on valid UTF-8
  coincides with character-level infix search because UTF-8 is
  self-synchronizing.  Whitespace is modelled by the ASCII whitespace set,
  which covers every character the printer can emit.
* `f64` parsing and printing (used only by `Float` literals) are threaded as
  explicit function parameters `fp`/`fd`: floating-point text conversion is
  outside the embedding, and every theorem below is independent of them.
* `Array::get_last_mut` is called by `src/usm.rs` but not defined under
  `src/`; it is modelled as acting on the last pushed element, mirroring
  `array.rs`'s `get_last`, whose out-of-range case (empty array) yields the
  default (`Nop`) slot that the callers test for explicitly.
* Debug tracing (`println!`) and file I/O are host-side effects outside the
  embedding; the debug flags of `VM` default to off and do not change state.
-/

namespace Str

/-- ASCII whitespace, the fragment of Rust's `char::is_whitespace` relevant
to the character set produced by the printer and used by the test sources. -/
def isWhite (c : Char) : Bool :=
  c = ' ' || c = '\t' || c = '\n' || c = '\r'

/-- Rust `str::trim` on a character list. -/
def trim (l : List Char) : List Char :=
  ((l.dropWhile isWhite).reverse.dropWhile isWhite).reverse

/-- Helper of Rust `str::lines`: a line terminated by `'\n'` drops a
trailing `'\r'`. -/
def stripCr (l : List Char) : List Char :=
  if l.getLast? = some '\r' then l.dropLast else l

/-- Worker for `lines`: accumulates the current line in reverse. -/
def linesGo (acc : List Char) : List Char → List (List Char)
  | [] => if acc.isEmpty then [] else [acc.reverse]
  | c :: rest =>
    if c = '\n' then stripCr acc.reverse :: linesGo [] rest
    else linesGo (c :: acc) rest

/-- Rust `str::lines`: split at `'\n'`, strip a `'\r'` before each `'\n'`,
no trailing empty line for a terminated final line. -/
def lines (l : List Char) : List (List Char) := linesGo [] l

/-- Worker for `splitWs`: accumulates the current word in reverse. -/
def splitWsGo (acc : List Char) : List Char → List (List Char)
  | [] => if acc.isEmpty then [] else [acc.reverse]
  | c :: rest =>
    if isWhite c then
      if acc.isEmpty then splitWsGo [] rest else acc.reverse :: splitWsGo [] rest
    else splitWsGo (c :: acc) rest

/-- Rust `str::split_whitespace`: maximal nonempty runs of non-whitespace. -/
def splitWs (l : List Char) : List (List Char) := splitWsGo [] l

/-- Rust `str::strip_suffix(c)`. -/
def stripSuffix (c : Char) (l : List Char) : Option (List Char) :=
  if l.getLast? = some c then some l.dropLast else none

/-- Rust `str::rsplit_once(c)`: split around the last occurrence of `c`. -/
def rsplitOnce (c : Char) (l : List Char) : Option (List Char × List Char) :=
  let suf := (l.reverse.takeWhile (fun x => !(x = c))).reverse
  if suf.length = l.length then none
  else some (l.take (l.length - suf.length - 1), suf)

/-- Substring search: does `pat` occur contiguously in `hay`? -/
def isSubstr (pat : List Char) : List Char → Bool
  | [] => pat.isPrefixOf []
  | c :: t => pat.isPrefixOf (c :: t) || isSubstr pat t

/-- Rust `str::contains(pat)` for a string pattern: substring search. -/
def containsStr (hay pat : List Char) : Bool := isSubstr pat hay

/-- Rust `str::contains(c)` for a character pattern. -/
def containsChar (l : List Char) (c : Char) : Bool := l.contains c

/-- Digit accumulation of Rust's integer `FromStr` (no overflow here: the
range checks live in `parseUsize`/`parseIsize`). -/
def parseNat (cs : List Char) : Option Nat :=
  if cs ≠ [] ∧ cs.all Char.isDigit then
    some (cs.foldl (fun acc c => 10 * acc + (c.toNat - 48)) 0)
  else none

/-- Rust `str::parse::<usize>()`: optional leading `'+'`, decimal digits,
range check against `2^64`. -/
def parseUsize (cs : List Char) : Option Nat :=
  let go := fun (ds : List Char) =>
    (parseNat ds).bind fun n => if n < 2 ^ 64 then some n else none
  if cs.head? = some '+' then go cs.tail else go cs

/-- Rust `str::parse::<isize>()`: optional leading sign, decimal digits,
range check against the two's-complement 64-bit range. -/
def parseIsize (cs : List Char) : Option Int :=
  let pos := fun (ds : List Char) =>
    (parseNat ds).bind fun n => if n < 2 ^ 63 then some (n : Int) else none
  if cs.head? = some '-' then
    (parseNat cs.tail).bind fun n => if n ≤ 2 ^ 63 then some (-(n : Int)) else none
  else if cs.head? = some '+' then pos cs.tail
  else pos cs

/-- The ASCII digit character of `d` (meaningful for `d < 10`). -/
def digitChar (d : Nat) : Char := Char.ofNat (48 + d)

/-- Worker for `natRepr`; the fuel bounds the digit count (any fuel at least
`n` is enough). -/
def natReprGo : Nat → Nat → List Char
  | 0, _ => []
  | fuel + 1, n => if n = 0 then [] else natReprGo fuel (n / 10) ++ [digitChar (n % 10)]

/-- Decimal rendering of a `Nat`, as Rust `Display` for unsigned integers. -/
def natRepr (n : Nat) : List Char :=
  if n = 0 then ['0'] else natReprGo n n

/-- Decimal rendering of an `Int`, as Rust `Display` for signed integers. -/
def intRepr (i : Int) : List Char :=
  if i < 0 then '-' :: natRepr i.natAbs else natRepr i.natAbs

end Str

namespace Usm

open Str

/-- `src/usm.rs` `Value`: the `Float` payload is the IEEE-754 bit pattern
(a `Nat` below `2^64`); `Int`/`Uint` carry the mathematical value of the
64-bit machine integer. -/
inductive Value where
  | Float (bits : Nat)
  | Int (i : Int)
  | Uint (n : Nat)
  | Null
deriving DecidableEq, Repr

/-- `src/usm.rs` `Value::is_null`. -/
def Value.isNull : Value → Bool
  | .Null => true
  | _ => false

/-- `src/usm.rs` `InstructionKind` (opcodes 0–10). -/
inductive InstructionKind where
  | Nop | Push | Dup | Drop | Eq | Jump | Sum | Sub | Mul | Div | NotEq
deriving DecidableEq, Repr

/-- The `#[repr(u8)]` discriminant of `InstructionKind` (`inst.kind as u8`). -/
def InstructionKind.toU8 : InstructionKind → Nat
  | .Nop => 0 | .Push => 1 | .Dup => 2 | .Drop => 3 | .Eq => 4 | .Jump => 5
  | .Sum => 6 | .Sub => 7 | .Mul => 8 | .Div => 9 | .NotEq => 10

/-- `src/usm.rs` `InstructionKind::try_from_idx`; the Rust wildcard arm is
`panic!()`, modelled as `none`. -/
def InstructionKind.tryFromIdx : Nat → Option InstructionKind
  | 0 => some .Nop
  | 1 => some .Push
  | 2 => some .Dup
  | 3 => some .Drop
  | 4 => some .Eq
  | 5 => some .Jump
  | 6 => some .Sum
  | 7 => some .Sub
  | 8 => some .Mul
  | 9 => some .Div
  | 10 => some .NotEq
  | _ => none

/-- `src/usm.rs` `InstructionKind::try_parse`: the mnemonic table. -/
def InstructionKind.tryParse (w : List Char) : Option InstructionKind :=
  if w = "неоп".toList then some .Nop
  else if w = "кинь".toList then some .Drop
  else if w = "копію".toList then some .Dup
  else if w = "клади".toList then some .Push
  else if w = "крок".toList then some .Jump
  else if w = "рівн".toList then some .Eq
  else if w = "різн".toList then some .Sub
  else if w = "множ".toList then some .Mul
  else if w = "діли".toList then some .Div
  else if w = "сума".toList then some .Sum
  else if w = "нерівн".toList then some .NotEq
  else none

/-- `src/usm.rs` `InstructionKind::has_operand`. -/
def InstructionKind.hasOperand : InstructionKind → Bool
  | .Push | .Dup | .Jump => true
  | _ => false

/-- `src/utils.rs` `Display for InstructionKind`: the mnemonic. -/
def kindDisplay : InstructionKind → List Char
  | .Nop => "неоп".toList
  | .Drop => "кинь".toList
  | .Dup => "копію".toList
  | .Push => "клади".toList
  | .Jump => "крок".toList
  | .Eq => "рівн".toList
  | .Sub => "різн".toList
  | .Mul => "множ".toList
  | .Div => "діли".toList
  | .Sum => "сума".toList
  | .NotEq => "нерівн".toList

/-- `src/usm.rs` `Instruction`. -/
structure Instruction where
  kind : InstructionKind
  operand : Value
  conditional : Bool
deriving DecidableEq, Repr

/-- The `Default` instruction (`Nop`, `Null`, non-conditional). -/
def instDefault : Instruction := ⟨.Nop, .Null, false⟩

/-- Little-endian bytes of `n % 2^64` (`to_le_bytes` of a 64-bit value). -/
def toLeBytes8 (n : Nat) : List Nat :=
  [n % 256, n / 256 % 256, n / 256 ^ 2 % 256, n / 256 ^ 3 % 256,
   n / 256 ^ 4 % 256, n / 256 ^ 5 % 256, n / 256 ^ 6 % 256, n / 256 ^ 7 % 256]

/-- `from_le_bytes`: recombine little-endian bytes. -/
def fromLeBytes (l : List Nat) : Nat :=
  l.foldr (fun b acc => b + 256 * acc) 0

/-- Reinterpret a 64-bit unsigned value as two's-complement signed
(`isize::from_le_bytes`). -/
def toSigned (n : Nat) : Int :=
  if n < 2 ^ 63 then (n : Int) else (n : Int) - 2 ^ 64

/-- The 64-bit two's-complement bit pattern of `i` (`isize::to_le_bytes`
before the byte split). -/
def toUnsigned (i : Int) : Nat := (i % 2 ^ 64).toNat

/-- `src/usm.rs` `serialize`: byte 0 the opcode, byte 1 the packed
conditional/type field, bytes 2–9 the little-endian operand payload. -/
def serialize (inst : Instruction) : List Nat :=
  let b1 := (if inst.conditional then 1 else 0) +
    match inst.operand with
    | .Float _ => 200
    | .Uint _ => 100
    | .Int _ => 10
    | .Null => 0
  let payload :=
    match inst.operand with
    | .Float bits => toLeBytes8 bits
    | .Uint n => toLeBytes8 n
    | .Int i => toLeBytes8 (toUnsigned i)
    | .Null => List.replicate 8 0
  inst.kind.toU8 :: b1 :: payload

/-- `src/usm.rs` `deserialize`.  `InstructionKind::try_from_idx` panics on
an unknown opcode byte, so the result is an `Option`: `none` is the panic.
The `match` on byte 1 follows the source ranges `200..`, `100..`, `10..`
and the wildcard. -/
def deserialize (se : List Nat) : Option Instruction :=
  (InstructionKind.tryFromIdx (se.getD 0 0)).map fun kind =>
    let inst_opts := se.getD 1 0
    let chunck := (se.drop 2).take 8
    let p : Nat × Value :=
      if 200 ≤ inst_opts then (200, .Float (fromLeBytes chunck))
      else if 100 ≤ inst_opts then (100, .Int (toSigned (fromLeBytes chunck)))
      else if 10 ≤ inst_opts then (10, .Uint (fromLeBytes chunck))
      else (10, .Null)
    { kind := kind, operand := p.2, conditional := inst_opts % p.1 ≠ 0 }

/-- `src/usm.rs` `Value::try_parse`.  `fp` is the host `f64` parser
(`str::parse::<f64>` composed with `to_bits`), threaded as a parameter. -/
def Value.tryParse (fp : List Char → Option Nat) (w0 : List Char) : Option Value :=
  let w := trim w0
  if containsChar w '.' then (fp w).map .Float
  else
    match rsplitOnce '_' w with
    | some (val, suf) =>
      if suf = "дроб".toList then (fp val).map .Float
      else if suf = "зціл".toList then (parseIsize val).map .Int
      else if suf = "ціл".toList then (parseUsize val).map .Uint
      else none
    | none => (parseIsize w).map .Int

/-- `src/utils.rs` `Display for Value`; `fd` is the host `f64` printer. -/
def valueDisplay (fd : Nat → List Char) : Value → List Char
  | .Float bits => fd bits
  | .Uint n => natRepr n
  | .Int i => intRepr i
  | .Null => []

/-- `src/utils.rs` `Display for Instruction`: mnemonic, `'?'` when
conditional, a space, then the operand rendering. -/
def instDisplay (fd : Nat → List Char) (i : Instruction) : List Char :=
  kindDisplay i.kind ++ (if i.conditional then ['?'] else []) ++ [' '] ++
    valueDisplay fd i.operand

/-- `src/usm.rs` `assemble`: one printed instruction per line. -/
def assemble (fd : Nat → List Char) (p : List Instruction) : List Char :=
  (p.map (fun i => instDisplay fd i ++ ['\n'])).flatten

end Usm

namespace Usm

open Str

/-- `src/usm.rs` `Panic` as used by the assembler: `ParseError` carries the
rendered diagnostic message.  (The file-I/O variants live in the host layer
and are not constructed by the embedded code.) -/
inductive Panic where
  | ParseError (msg : List Char)
  | InvalidOperandValue
deriving DecidableEq, Repr

/-- Results of the translator: `ok`, a reported fault, or a Rust panic
(`crash`, e.g. an `Array::push` beyond capacity). -/
inductive Res (α : Type) where
  | ok (a : α)
  | fault (p : Panic)
  | crash
deriving DecidableEq, Repr

/-- `src/usm.rs` `Token`. -/
inductive Token where
  | value (v : Value)
  | inst (kind : InstructionKind) (conditional : Bool)
  | labelExpand (name : List Char)
deriving DecidableEq, Repr

/-- Worker of `src/usm.rs` `parse`: the per-word classification loop over
the whitespace-split word stream, threading `inst_count` and accumulating
the token and label lists in order.  Note the source increments
`inst_count` only in the non-conditional instruction arm. -/
def parseGo (fp : List Char → Option Nat) (cnt : Nat) :
    List (List Char) → List Token × List (List Char × Nat)
  | [] => ([], [])
  | w0 :: ws =>
    let w := trim w0
    match stripSuffix ':' w with
    | some label =>
      let r := parseGo fp cnt ws
      (r.1, (label, cnt) :: r.2)
    | none =>
      match stripSuffix '?' w with
      | some instW =>
        let t := match InstructionKind.tryParse instW with
          | some kind => Token.inst kind true
          | none => Token.labelExpand w
        let r := parseGo fp cnt ws
        (t :: r.1, r.2)
      | none =>
        match Value.tryParse fp w with
        | some v =>
          let r := parseGo fp cnt ws
          (Token.value v :: r.1, r.2)
        | none =>
          match InstructionKind.tryParse w with
          | some kind =>
            let r := parseGo fp (cnt + 1) ws
            (Token.inst kind false :: r.1, r.2)
          | none =>
            let r := parseGo fp cnt ws
            (Token.labelExpand w :: r.1, r.2)

/-- The comment-stripped word stream of `src/usm.rs` `parse`: lines, minus
lines whose first non-blank character is `'#'`, truncated at `'#'`, split on
whitespace. -/
def startsWithHash (l : List Char) : Bool :=
  match l.dropWhile isWhite with
  | c :: _ => c == '#'
  | [] => false

/-- `line.split_once('#')` keeping the left part (the whole line when there
is no `'#'`). -/
def stripComment (l : List Char) : List Char :=
  l.takeWhile (fun c => !(c = '#'))

/-- The flattened word stream fed to the classification loop. -/
def tokenStream (src : List Char) : List (List Char) :=
  (((lines src).filter (fun l => !startsWithHash l)).map stripComment).flatMap splitWs

/-- `src/usm.rs` `parse`: tokens and the label table. -/
def parse (fp : List Char → Option Nat) (src : List Char) :
    List Token × List (List Char × Nat) :=
  parseGo fp 0 (tokenStream src)

/-- `Array::<Instruction, 1024>::push`: the backing store is a fixed array,
so a push at capacity indexes out of bounds and aborts. -/
def pushInst (prog : List Instruction) (i : Instruction) : Res (List Instruction) :=
  if prog.length < 1024 then .ok (prog ++ [i]) else .crash

/-- The mutation performed through `get_last_mut`: replace the operand of
the last instruction (callers reach this only for a nonempty program). -/
def setLastOperand (prog : List Instruction) (v : Value) : List Instruction :=
  prog.dropLast ++ [{ prog.getLast?.getD instDefault with operand := v }]

/-- Diagnostic of `src/usm.rs` `disassemble`: label operand with no
preceding instruction. -/
def msgNoInstLabel (name : List Char) : List Char :=
  "не передбачений операнд у вигляді лейблу \"".toList ++ name ++
    "\" для відсутьої інструкції".toList

/-- Diagnostic: unknown label. -/
def msgUnknownLabel (name : List Char) (k : InstructionKind) : List Char :=
  "неіснуючий лейбл \"".toList ++ name ++ "\" для інструкції \"".toList ++
    kindDisplay k ++ "\"".toList

/-- Diagnostic: label operand for an instruction that takes none. -/
def msgUnexpectedLabel (name : List Char) (k : InstructionKind) : List Char :=
  "спроба використати лейбл \"".toList ++ name ++
    "\" як не передбачений операнд для інструкції \"".toList ++
    kindDisplay k ++ "\"".toList

/-- Diagnostic: literal operand with no preceding instruction. -/
def msgNoInstValue (fd : Nat → List Char) (v : Value) : List Char :=
  "не передбачений операнд \"".toList ++ valueDisplay fd v ++
    "\" для відсутьої інструкції".toList

/-- Diagnostic: literal operand for an instruction that takes none. -/
def msgUnexpectedValue (fd : Nat → List Char) (v : Value) (k : InstructionKind) :
    List Char :=
  "не передбачений операнд \"".toList ++ valueDisplay fd v ++
    "\" для інструкції \"".toList ++ kindDisplay k ++ "\"".toList

/-- Diagnostic: an operand-taking instruction whose operand was never
back-filled. -/
def msgMissingOperand (k : InstructionKind) : List Char :=
  "відсутнє значення для інструкції \"".toList ++ kindDisplay k ++ "\"".toList

/-- One step of the back-fill loop of `src/usm.rs` `disassemble`: the
`match token` body.  The label lookup is the source's
`labels_table.iter().find(|l| l.0.contains(name.as_str()))` — a substring
test of the reference inside the declared name. -/
def processToken (fd : Nat → List Char) (labels : List (List Char × Nat))
    (prog : List Instruction) : Token → Res (List Instruction)
  | .inst kind conditional => pushInst prog ⟨kind, .Null, conditional⟩
  | .labelExpand name =>
    let last := prog.getLast?.getD instDefault
    if last.kind = .Nop then .fault (.ParseError (msgNoInstLabel name))
    else if last.kind.hasOperand then
      match labels.find? (fun l => containsStr l.1 name) with
      | some l => .ok (setLastOperand prog (.Uint l.2))
      | none => .fault (.ParseError (msgUnknownLabel name last.kind))
    else .fault (.ParseError (msgUnexpectedLabel name last.kind))
  | .value v =>
    let last := prog.getLast?.getD instDefault
    if last.kind = .Nop then .fault (.ParseError (msgNoInstValue fd v))
    else if last.kind.hasOperand then .ok (setLastOperand prog v)
    else .fault (.ParseError (msgUnexpectedValue fd v last.kind))

/-- The back-fill loop over the token list. -/
def processTokens (fd : Nat → List Char) (labels : List (List Char × Nat)) :
    List Token → List Instruction → Res (List Instruction)
  | [], prog => .ok prog
  | t :: ts, prog =>
    match processToken fd labels prog t with
    | .ok prog' => processTokens fd labels ts prog'
    | .fault p => .fault p
    | .crash => .crash

/-- `src/usm.rs` `disassemble` (text → program): parse, back-fill operands,
then reject any operand-taking instruction left with a `Null` operand. -/
def disassemble (fp : List Char → Option Nat) (fd : Nat → List Char)
    (src : List Char) : Res (List Instruction) :=
  let r := parse fp src
  match processTokens fd r.2 r.1 [] with
  | .ok prog =>
    match prog.find? (fun i => i.kind.hasOperand && i.operand.isNull) with
    | some e => .fault (.ParseError (msgMissingOperand e.kind))
    | none => .ok prog
  | .fault p => .fault p
  | .crash => .crash

end Usm

namespace Uvm

/-- `src/main.rs` `Value`: the VM of this generation stores only signed
64-bit integers and the absent-value marker. -/
inductive Value where
  | Int (i : Int)
  | Null
deriving DecidableEq, Repr

/-- `src/main.rs` `InstructionKind` (twelve opcodes). -/
inductive InstructionKind where
  | Nop | Drop | Dup | Push | DupAt | JumpIf | Jump | Eq | Sub | Mul | Div | Sum
deriving DecidableEq, Repr

/-- `src/main.rs` `Instruction` (no conditional flag in this generation). -/
structure Instruction where
  kind : InstructionKind
  operand : Value
deriving DecidableEq, Repr

/-- The initial program slot contents (`VM::init` fills the program array
with `Nop`/`Null`). -/
def instDefault : Instruction := ⟨.Nop, .Null⟩

/-- `src/main.rs` `Panic`.  `InvalidOperandValue`/`IlligalInstructionOperands`
carry the offending value(s) directly in place of their rendered strings;
the file-I/O variants are host-side and never constructed by the embedded
code. -/
inductive Panic where
  | StackOverflow
  | StackUnderflow
  | IntegerOverflow
  | InvalidOperandValue (operand : Value) (inst : InstructionKind)
  | IlligalInstructionOperands (inst : InstructionKind) (val_a val_b : Value)
  | InvalidInstruction (name : List Char)
  | InvalidBinaryInstruction
  | InstLimitkOverflow (size : Nat)
  | DivByZero
deriving DecidableEq, Repr

/-- Outcome of running embedded VM code: success, a returned `Err(Panic)`,
or a Rust process abort (index out of bounds, arithmetic abort). -/
inductive Res (α : Type) where
  | ok (a : α)
  | fault (p : Panic)
  | crash
deriving DecidableEq, Repr

/-- `VM_STACK_CAPACITY` and `PROGRAM_INST_CAPACITY`. -/
def CAPACITY : Nat := 1024

/-- `src/main.rs` `VM`.  The `stack` list is the fixed 1024-slot array (its
length is `CAPACITY` for every state reachable from `VM::init`); `program`
holds the loaded prefix of the program array, whose remaining slots keep
their `Nop` default — reads use `getD instDefault`, matching the untouched
array tail.  `program_size` is `program.length`.  The debug flags are
omitted: they only print. -/
structure VM where
  stack : List Value
  stack_size : Nat
  program : List Instruction
  inst_ptr : Nat
  inst_limit : Option Nat
deriving DecidableEq, Repr

/-- `VM::init` with a program loaded by `load_from_memmory` (the claims all
start from such a state). -/
def VM.load (prog : List Instruction) : VM :=
  { stack := List.replicate CAPACITY .Null
    stack_size := 0
    program := prog
    inst_ptr := 0
    inst_limit := none }

/-- Read the fixed-size stack array: out of bounds is a Rust panic
(`none`). -/
def VM.stackRead (vm : VM) (i : Nat) : Option Value :=
  if i < CAPACITY then some (vm.stack.getD i .Null) else none

/-- The signed 64-bit range of `isize`. -/
def inIsizeRange (i : Int) : Prop := -(2 ^ 63) ≤ i ∧ i ≤ 2 ^ 63 - 1

instance (i : Int) : Decidable (inIsizeRange i) :=
  inferInstanceAs (Decidable (_ ∧ _))

/-- Wrap-around (release-mode) two's-complement 64-bit arithmetic. -/
def wrap (i : Int) : Int := (i + 2 ^ 63) % 2 ^ 64 - 2 ^ 63

/-- `src/main.rs` `VM::stack_push`: non-`Int` values fault; the
`(isize::MIN..=isize::MAX).contains` test is the source's (tautological for
`isize`) range check; pushing at exactly the capacity faults, and a write
past the array end (unreachable from well-formed states) aborts. -/
def stack_push (vm : VM) (value : Value) : Res VM :=
  match value with
  | .Null => .fault (.InvalidOperandValue .Null .Push)
  | .Int value =>
    if ¬inIsizeRange value then .fault .IntegerOverflow
    else if vm.stack_size = CAPACITY then .fault .StackOverflow
    else if vm.stack_size < CAPACITY then
      .ok { vm with stack := vm.stack.set vm.stack_size (.Int value)
                    stack_size := vm.stack_size + 1 }
    else .crash

/-- `src/main.rs` `VM::stack_pop`: popping the empty stack faults; the
freed slot is reset to `Null`. -/
def stack_pop (vm : VM) : Res (Value × VM) :=
  if vm.stack_size = 0 then .fault .StackUnderflow
  else
    match vm.stackRead (vm.stack_size - 1) with
    | some value =>
      .ok (value, { vm with stack := vm.stack.set (vm.stack_size - 1) .Null
                            stack_size := vm.stack_size - 1 })
    | none => .crash

/-- `usize` wrap-around subtraction of one (`self.stack_size -= 1` in
release mode). -/
def usizeDec (n : Nat) : Nat := (n + (2 ^ 64 - 1)) % 2 ^ 64

/-- `i as usize` for a (possibly negative) `isize`. -/
def intAsUsize (i : Int) : Nat := (i % 2 ^ 64).toNat

end Uvm

namespace Uvm

/-- Result of the closure argument of `push_from` (`F: Fn(isize, isize) ->
Result<isize, Panic>`; the division-overflow abort is the `crash` case). -/
inductive ArithRes where
  | ok (r : Int)
  | fault (p : Panic)
  | crash

/-- `src/main.rs` `push_from`: pop `a` (top) then `b`, require both `Int`,
push `Int (f a b)`.  The `IlligalInstructionOperands` payload refetches the
current instruction's kind, as the source does. -/
def push_from (vm : VM) (f : Int → Int → ArithRes) : Res VM :=
  match stack_pop vm with
  | .fault p => .fault p
  | .crash => .crash
  | .ok (val_a, vm1) =>
    match stack_pop vm1 with
    | .fault p => .fault p
    | .crash => .crash
    | .ok (val_b, vm2) =>
      match val_a, val_b with
      | .Int a, .Int b =>
        match f a b with
        | .ok r => stack_push vm2 (.Int r)
        | .fault p => .fault p
        | .crash => .crash
      | val_a, val_b =>
        .fault (.IlligalInstructionOperands
          (vm2.program.getD vm2.inst_ptr instDefault).kind val_a val_b)

/-- `src/main.rs` `VM::execute_instruction`: one opcode body.  The fetch
`self.program[self.inst_ptr]` indexes the 1024-slot program array, so an
instruction pointer past the array aborts; slots between `program_size` and
the capacity still hold the `Nop` default, which `getD` reproduces.
Release-mode arithmetic: `+`/`-`/`*` wrap, `/` aborts on `MIN / -1` and the
explicit `a == 0` test faults with `DivByZero`. -/
def execute_instruction (vm : VM) : Res VM :=
  if vm.inst_ptr < CAPACITY then
    let inst := vm.program.getD vm.inst_ptr instDefault
    match inst.kind with
    | .Nop => .ok vm
    | .Push => stack_push vm inst.operand
    | .Drop =>
      let s := usizeDec vm.stack_size
      if s < CAPACITY then
        .ok { vm with stack_size := s, stack := vm.stack.set s .Null }
      else .crash
    | .DupAt =>
      match inst.operand with
      | .Null => .fault (.InvalidOperandValue .Null .DupAt)
      | .Int addr =>
        if addr < 0 ∨ vm.inst_ptr < intAsUsize addr then
          .fault (.InvalidOperandValue (.Int addr) .DupAt)
        else
          match vm.stackRead (intAsUsize addr) with
          | some v => stack_push vm v
          | none => .crash
    | .Dup =>
      match stack_pop vm with
      | .fault p => .fault p
      | .crash => .crash
      | .ok (target, vm1) =>
        match stack_push vm1 target with
        | .fault p => .fault p
        | .crash => .crash
        | .ok vm2 => stack_push vm2 target
    | .JumpIf =>
      if vm.stack_size < 1 then .fault .StackUnderflow
      else
        match vm.stackRead vm.stack_size with
        | none => .crash
        | some v =>
          if v ≠ .Null then
            match inst.operand with
            | .Null => .fault (.InvalidOperandValue .Null .JumpIf)
            | .Int addr => .ok { vm with inst_ptr := intAsUsize addr }
          else .ok vm
    | .Jump =>
      match inst.operand with
      | .Null => .fault (.InvalidOperandValue .Null .Jump)
      | .Int addr =>
        if addr < 0 ∨ vm.program.length < intAsUsize addr then
          .fault (.InvalidOperandValue (.Int addr) .Jump)
        else .ok { vm with inst_ptr := intAsUsize addr }
    | .Eq =>
      if vm.stack_size < 2 then .fault .StackUnderflow
      else
        match vm.stackRead (vm.stack_size - 1), vm.stackRead (vm.stack_size - 2) with
        | some a, some b => stack_push vm (if a = b then .Int 1 else .Int 0)
        | _, _ => .crash
    | .Sum => push_from vm (fun a b => .ok (wrap (b + a)))
    | .Sub => push_from vm (fun a b => .ok (wrap (b - a)))
    | .Mul => push_from vm (fun a b => .ok (wrap (b * a)))
    | .Div =>
      push_from vm (fun a b =>
        if a = 0 then .fault .DivByZero
        else if b = -(2 ^ 63) ∧ a = -1 then .crash
        else .ok (b.tdiv a))
  else .crash

/-- The body of `src/main.rs` `VM::execute`, with the loop expressed by the
remaining iteration budget `fuel = limit - inst_count` (the source guard
`inst_count != limit` with `inst_count` counting up from zero).  The second
component returns the final `inst_count`, which the source keeps as a local
counter; it advances only after a successful instruction, as in the source,
and `inst_ptr += 1` runs after every successful instruction — including
taken jumps. -/
def executeLoop : Nat → VM → Res VM × Nat
  | 0, vm => (.ok vm, 0)
  | fuel + 1, vm =>
    if vm.inst_ptr < vm.program.length then
      match execute_instruction vm with
      | .ok vm1 =>
        let r := executeLoop fuel { vm1 with inst_ptr := vm1.inst_ptr + 1 }
        (r.1, r.2 + 1)
      | .fault p => (.fault p, 0)
      | .crash => (.crash, 0)
    else (.ok vm, 0)

/-- `src/main.rs` `VM::execute`: the iteration limit is `inst_limit` when
set and otherwise `program_size`. -/
def execute (vm : VM) : Res VM × Nat :=
  executeLoop (vm.inst_limit.getD vm.program.length) vm

end Uvm

/-! ## Shared concrete parameters for the host float conversions -/

/-- A host `f64` parser that accepts nothing: the sources under test never
contain a float literal, so every theorem holds for this (and, where
quantified, any) parser. -/
def fp0 : List Char → Option Nat := fun _ => none

/-- A host `f64` printer that renders nothing: the programs under test never
carry a `Float` operand. -/
def fd0 : Nat → List Char := fun _ => []

/-- The instruction `клади 5_зціл` (`Push` of `Int 5`, unconditional). -/
def pushInt5 : Usm.Instruction := ⟨.Push, .Int 5, false⟩

/-- What `Usm.deserialize` actually returns for the wire form of
`pushInt5`: the same bit pattern re-tagged as `Uint`. -/
def pushUint5 : Usm.Instruction := ⟨.Push, .Uint 5, false⟩

/-- C1: codec round-trip.  The encoder writes type tag `10` for `Int` and
`100` for `Uint` (as its own doc comment states), but the decoder reads
`100..` as `Int` and `10..` as `Uint`, so `deserialize ∘ serialize` swaps
the `Int`/`Uint` tags: the `Int 5` push instruction serializes to the
documented chunk `[1, 10, 5, 0, …]` yet deserializes to a `Uint 5` push.
The claim's round-trip law fails on the very first integer operand. -/
theorem c1_codec_tag_swap :
    Usm.serialize pushInt5 = [1, 10, 5, 0, 0, 0, 0, 0, 0, 0] ∧
    Usm.deserialize (Usm.serialize pushInt5) = some pushUint5 ∧
    pushUint5 ≠ pushInt5 := by
  refine ⟨rfl, rfl, by decide⟩

/-- A 10-byte chunk whose opcode byte (11) names no opcode of
`src/usm.rs`. -/
def chunk11 : List Nat := [11, 0, 0, 0, 0, 0, 0, 0, 0, 0]

/-- C8 (counterexample): deserializing the opcode-byte-11 chunk does not
produce any result — `InstructionKind::try_from_idx` hits its `panic!()`
arm (modelled as `none`), so no `Instruction` and no recoverable error
value is returned, contradicting the claimed explicit error result. -/
theorem c8_opcode_counterexample : Usm.deserialize chunk11 = none := by
  rfl

/-- C8 (amended): for every chunk whose opcode byte is 11 or larger,
`deserialize` panics (aborts the process) instead of returning an
unrecognized-opcode error value. -/
theorem c8_opcode_amended (se : List Nat) (h : 11 ≤ se.getD 0 0) :
    Usm.deserialize se = none := by
  obtain ⟨k, hk⟩ : ∃ k, se.getD 0 0 = k + 11 := ⟨se.getD 0 0 - 11, by omega⟩
  unfold Usm.deserialize
  rw [show Usm.InstructionKind.tryFromIdx (se.getD 0 0) = none from hk ▸ rfl]
  rfl

/-- C8 (witness for the amended theorem): the chunk with opcode byte 12. -/
theorem c8_opcode_amended_witness :
    11 ≤ ([12, 0, 0, 0, 0, 0, 0, 0, 0, 0] : List Nat).getD 0 0 ∧
    Usm.deserialize [12, 0, 0, 0, 0, 0, 0, 0, 0, 0] = none :=
  ⟨by decide, c8_opcode_amended [12, 0, 0, 0, 0, 0, 0, 0, 0, 0] (by decide)⟩

/-- The USM source `неоп?` / `м:` / `крок м`: one conditional instruction,
then a label declaration, then a jump through the label. -/
def c9src : List Char := "неоп?\nм:\nкрок м".toList

/-- C9: pass-1 address accounting.  A conditional instruction token emits
an instruction but does **not** advance `inst_count` (only the
non-conditional arm of `parse` increments it), so the label `м`, declared
after one emitted instruction, is recorded at address 0 instead of 1, and
the jump through it resolves to `Uint 0` — the label table disagrees with
the program indices the same pass assigns. -/
theorem c9_label_count_bug :
    (Usm.parse fp0 c9src).2 = [("м".toList, 0)] ∧
    Usm.disassemble fp0 fd0 c9src =
      .ok [⟨.Nop, .Null, true⟩, ⟨.Jump, .Uint 0, false⟩] := by
  constructor <;> rfl

/-- A one-instruction program: `Drop` with an empty stack. -/
def dropVM : Uvm.VM := Uvm.VM.load [⟨.Drop, .Null⟩]

/-- C5: stack discipline.  `stack_pop` on the empty stack returns the
underflow fault, but the `Drop` opcode body bypasses `stack_pop` and
executes `self.stack_size -= 1` directly: on the empty stack the `usize`
subtraction wraps and the subsequent store indexes out of bounds — a
process abort, not the claimed stack-underflow fault. -/
theorem c5_drop_crash :
    Uvm.stack_pop dropVM = .fault .StackUnderflow ∧
    Uvm.execute_instruction dropVM = .crash := by
  constructor <;> rfl

/-- A two-instruction program whose first instruction jumps to address 2 =
program length. -/
def c3vm : Uvm.VM := Uvm.VM.load [⟨.Jump, .Int 2⟩, ⟨.Nop, .Null⟩]

/-- C3 (counterexample): `Jump` with target `2` in a program of length 2
succeeds (the bound check is `addr > program_size`, not `addr >=`), setting
`ip = 2`, where the claim demands a fault for `addr ≥ program length`. -/
theorem c3_jump_counterexample :
    Uvm.execute_instruction c3vm = .ok { c3vm with inst_ptr := 2 } := by
  rfl

/-- A `Sum` instruction over the stack `[isize::MAX, 1]` (top is `1`). -/
def c4vm : Uvm.VM :=
  { Uvm.VM.load [⟨.Sum, .Null⟩] with
    stack := .Int (2 ^ 63 - 1) :: .Int 1 :: List.replicate 1022 .Null
    stack_size := 2 }

/-- C4 (counterexample): `isize::MAX + 1` does not fault — the `Sum` body
uses unchecked `+`, which wraps to `isize::MIN` in the compiled code, so
the claimed overflow fault never happens and the wrapped value is pushed. -/
theorem c4_arith_counterexample :
    Uvm.execute_instruction c4vm =
      .ok { c4vm with
            stack := .Int (-(2 ^ 63)) :: .Null :: List.replicate 1022 .Null
            stack_size := 1 } := by
  rfl

/-- An `Eq` instruction over a full stack (1024 equal elements). -/
def c7vm : Uvm.VM :=
  { Uvm.VM.load [⟨.Eq, .Null⟩] with
    stack := List.replicate 1024 (.Int 0)
    stack_size := 1024 }

set_option maxRecDepth 8192 in
/-- C7 (counterexample): on a full stack with (far more than) two elements,
`Eq` does not grow the stack by one — the push of the comparison result
faults with the overflow kind.  (The claim as stated also names `Uint(1)`
as the pushed value, a constructor this VM's `Value` type does not have.) -/
theorem c7_eq_counterexample :
    Uvm.execute_instruction c7vm = .fault .StackOverflow := by
  rfl

/-- The source `ab:\nкрок a`: a label `ab` and a jump through the
never-declared name `a`. -/
def c6src : List Char := "ab:\nкрок a".toList

/-- C6 (counterexample): the label lookup is
`labels_table.iter().find(|l| l.0.contains(name))` — a substring test — so
the reference `a`, never declared as a label, silently resolves to the
address of the label `ab` and a program is returned, where the claim
demands an unknown-label fault and no program. -/
theorem c6_label_counterexample :
    Usm.disassemble fp0 fd0 c6src = .ok [⟨.Jump, .Uint 0, false⟩] := by
  rfl

/-- The program `клади 5_ціл` (`Push` of `Uint 5`). -/
def c2prog : List Usm.Instruction := [⟨.Push, .Uint 5, false⟩]

/-- C2 (counterexample): the printer renders operands without any type
suffix — `Push (Uint 5)` prints as `клади 5` — and the assembler parses the
bare `5` as a signed literal, so the round trip returns `Push (Int 5)`,
not the original program. -/
theorem c2_roundtrip_counterexample :
    Usm.assemble fd0 c2prog = "клади 5\n".toList ∧
    Usm.disassemble fp0 fd0 (Usm.assemble fd0 c2prog) =
      .ok [⟨.Push, .Int 5, false⟩] ∧
    ([⟨.Push, .Int 5, false⟩] : List Usm.Instruction) ≠ c2prog := by
  refine ⟨rfl, rfl, by decide⟩

namespace Uvm

/-- The loop executes at most `fuel` instructions: the returned
`inst_count` never exceeds the iteration budget. -/
theorem executeLoop_count_le (fuel : Nat) : ∀ vm : VM, (executeLoop fuel vm).2 ≤ fuel := by
  induction fuel with
  | zero => intro vm; simp [executeLoop]
  | succ n ih =>
    intro vm
    simp only [executeLoop]
    split
    · rcases hE : execute_instruction vm with vm1 | p | _ <;> simp only
      · exact Nat.succ_le_succ (ih _)
      · exact Nat.zero_le _
      · exact Nat.zero_le _
    · exact Nat.zero_le _

end Uvm

/-- The ping-pong program `[Nop, Jump 0]`: `Jump 0` sets `ip = 0` and the
loop increment brings it back to 1, so it would run forever without the
implicit limit. -/
def c10vm : Uvm.VM := Uvm.VM.load [⟨.Nop, .Null⟩, ⟨.Jump, .Int 0⟩]

/-- C10: implicit bounded execution.  With no configured instruction limit,
`execute` runs `executeLoop` with the loaded program's length as the
budget; the loop executes at most that many instructions; and an exhausted
budget returns `ok` (the state unchanged by the exit itself) even when the
instruction pointer is still inside the program. -/
theorem c10_bounded_execution (vm : Uvm.VM) (h : vm.inst_limit = none) :
    Uvm.execute vm = Uvm.executeLoop vm.program.length vm ∧
    (Uvm.execute vm).2 ≤ vm.program.length ∧
    (Uvm.executeLoop 0 vm).1 = .ok vm := by
  have h1 : Uvm.execute vm = Uvm.executeLoop vm.program.length vm := by
    unfold Uvm.execute
    rw [h, Option.getD_none]
  exact ⟨h1, h1 ▸ Uvm.executeLoop_count_le _ vm, rfl⟩

/-- C10 (witness): the ping-pong program runs exactly two instructions and
stops successfully with `ip = 1`, still inside the program. -/
theorem c10_bounded_execution_witness :
    c10vm.inst_limit = none ∧
    (Uvm.execute c10vm = Uvm.executeLoop c10vm.program.length c10vm ∧
     (Uvm.execute c10vm).2 ≤ c10vm.program.length ∧
     (Uvm.executeLoop 0 c10vm).1 = .ok c10vm) ∧
    Uvm.execute c10vm = (.ok { c10vm with inst_ptr := 1 }, 2) :=
  ⟨rfl, c10_bounded_execution c10vm rfl, by rfl⟩

/-- C3 (amended): `Jump` with operand `Int addr` faults iff `addr < 0` or
`addr > program length` (so `addr = program length` is accepted); on
success the instruction pointer becomes `addr`, and the execute loop's
unconditional `inst_ptr += 1` then makes the next fetched instruction
`program[addr + 1]`, not `program[addr]`. -/
theorem c3_jump_amended (vm : Uvm.VM) (a : Int)
    (hip : vm.inst_ptr < vm.program.length) (hlen : vm.program.length ≤ 1024)
    (hinst : vm.program.getD vm.inst_ptr Uvm.instDefault = ⟨.Jump, .Int a⟩) :
    ((a < 0 ∨ vm.program.length < Uvm.intAsUsize a) →
      Uvm.execute_instruction vm = .fault (.InvalidOperandValue (.Int a) .Jump)) ∧
    (¬(a < 0 ∨ vm.program.length < Uvm.intAsUsize a) →
      Uvm.execute_instruction vm = .ok { vm with inst_ptr := Uvm.intAsUsize a } ∧
      ∀ fuel, Uvm.executeLoop (fuel + 1) vm =
        ((Uvm.executeLoop fuel { vm with inst_ptr := Uvm.intAsUsize a + 1 }).1,
         (Uvm.executeLoop fuel { vm with inst_ptr := Uvm.intAsUsize a + 1 }).2 + 1)) := by
  have hip' : vm.inst_ptr < Uvm.CAPACITY := by
    unfold Uvm.CAPACITY; omega
  have hexec : Uvm.execute_instruction vm =
      if a < 0 ∨ vm.program.length < Uvm.intAsUsize a
      then .fault (.InvalidOperandValue (.Int a) .Jump)
      else .ok { vm with inst_ptr := Uvm.intAsUsize a } := by
    unfold Uvm.execute_instruction
    rw [if_pos hip', hinst]
  constructor
  · intro h
    rw [hexec, if_pos h]
  · intro h
    have hok : Uvm.execute_instruction vm = .ok { vm with inst_ptr := Uvm.intAsUsize a } := by
      rw [hexec, if_neg h]
    refine ⟨hok, fun fuel => ?_⟩
    simp only [Uvm.executeLoop]
    rw [if_pos hip, hok]

/-- The program `[Jump 1, Nop]` used to witness the amended jump law. -/
def c3wvm : Uvm.VM := Uvm.VM.load [⟨.Jump, .Int 1⟩, ⟨.Nop, .Null⟩]

/-- C3 (witness): jumping to the in-range address 1 succeeds, sets `ip = 1`,
and one loop iteration continues from `ip = 2`. -/
theorem c3_jump_amended_witness :
    c3wvm.inst_ptr < c3wvm.program.length ∧
    c3wvm.program.getD c3wvm.inst_ptr Uvm.instDefault = ⟨.Jump, .Int 1⟩ ∧
    Uvm.execute_instruction c3wvm = .ok { c3wvm with inst_ptr := Uvm.intAsUsize 1 } ∧
    Uvm.executeLoop 1 c3wvm =
      ((Uvm.executeLoop 0 { c3wvm with inst_ptr := Uvm.intAsUsize 1 + 1 }).1,
       (Uvm.executeLoop 0 { c3wvm with inst_ptr := Uvm.intAsUsize 1 + 1 }).2 + 1) := by
  have h := c3_jump_amended c3wvm 1 (by decide) (by decide) (by rfl)
  have h2 := h.2 (by decide)
  exact ⟨by decide, by rfl, h2.1, h2.2 0⟩

namespace Uvm

/-- Wrapped 64-bit results are always representable: the (tautological for
`isize`) range check in `stack_push` never fires on arithmetic results. -/
theorem wrap_inIsizeRange (i : Int) : inIsizeRange (wrap i) := by
  unfold wrap inIsizeRange
  simp only [show (2 : Int) ^ 64 = 18446744073709551616 by norm_num,
    show (2 : Int) ^ 63 = 9223372036854775808 by norm_num]
  omega

/-- `stack_push` of an in-range integer below capacity: the success path. -/
theorem stack_push_int (vm : VM) (v : Int) (h1 : inIsizeRange v)
    (h2 : vm.stack_size < CAPACITY) :
    stack_push vm (.Int v) =
      .ok { vm with stack := vm.stack.set vm.stack_size (.Int v)
                    stack_size := vm.stack_size + 1 } := by
  have e : stack_push vm (.Int v) =
      if ¬inIsizeRange v then .fault .IntegerOverflow
      else if vm.stack_size = CAPACITY then .fault .StackOverflow
      else if vm.stack_size < CAPACITY then
        .ok { vm with stack := vm.stack.set vm.stack_size (.Int v)
                      stack_size := vm.stack_size + 1 }
      else .crash := rfl
  rw [e, if_neg (not_not_intro h1), if_neg (by omega), if_pos h2]

end Uvm

/-- The VM about to execute the binary opcode `k` over the two-element
stack `[b, a]` (`a` on top). -/
def arithVM (k : Uvm.InstructionKind) (a b : Int) : Uvm.VM :=
  { Uvm.VM.load [⟨k, .Null⟩] with
    stack := .Int b :: .Int a :: List.replicate 1022 .Null
    stack_size := 2 }

/-- The state of `arithVM` after both pops (freed slots reset to `Null`). -/
def arithPopped (k : Uvm.InstructionKind) (a b : Int) : Uvm.VM :=
  { arithVM k a b with
    stack := .Null :: .Null :: List.replicate 1022 .Null
    stack_size := 0 }

/-- The state after popping both operands and pushing the result `r`. -/
def arithResult (k : Uvm.InstructionKind) (r : Int) : Uvm.VM :=
  { Uvm.VM.load [⟨k, .Null⟩] with
    stack := .Int r :: .Null :: List.replicate 1022 .Null
    stack_size := 1 }

/-- C4 (amended): `Sum`/`Sub`/`Mul` pop `a` (top) then `b` and push
`b <op> a` computed with wrapping two's-complement 64-bit arithmetic —
overflow never faults and never surfaces the `IntegerOverflow` kind;
`Div` faults with the div-by-zero kind whenever the divisor is 0, and
aborts the process on `isize::MIN / -1` instead of faulting. -/
theorem c4_arith_amended (a b : Int) (_ha : Uvm.inIsizeRange a) (_hb : Uvm.inIsizeRange b) :
    Uvm.execute_instruction (arithVM .Sum a b) = .ok (arithResult .Sum (Uvm.wrap (b + a))) ∧
    Uvm.execute_instruction (arithVM .Sub a b) = .ok (arithResult .Sub (Uvm.wrap (b - a))) ∧
    Uvm.execute_instruction (arithVM .Mul a b) = .ok (arithResult .Mul (Uvm.wrap (b * a))) ∧
    (a = 0 → Uvm.execute_instruction (arithVM .Div a b) = .fault .DivByZero) ∧
    Uvm.execute_instruction (arithVM .Div (-1) (-(2 ^ 63))) = .crash := by
  have hsz : ∀ k : Uvm.InstructionKind, (arithPopped k a b).stack_size < Uvm.CAPACITY := by
    intro k
    show (0 : Nat) < 1024
    norm_num
  have hpush : ∀ (k : Uvm.InstructionKind) (r : Int), Uvm.inIsizeRange r →
      Uvm.stack_push (arithPopped k a b) (.Int r) = .ok (arithResult k r) := by
    intro k r hr
    rw [Uvm.stack_push_int _ r hr (hsz k)]
    rfl
  have hpops : ∀ k : Uvm.InstructionKind, ∀ f : Int → Int → Uvm.ArithRes,
      Uvm.push_from (arithVM k a b) f =
        match f a b with
        | .ok r => Uvm.stack_push (arithPopped k a b) (.Int r)
        | .fault p => .fault p
        | .crash => .crash := by
    intro k f
    rfl
  refine ⟨?_, ?_, ?_, ?_, ?_⟩
  · have e : Uvm.execute_instruction (arithVM .Sum a b) =
        Uvm.push_from (arithVM .Sum a b) (fun x y => .ok (Uvm.wrap (y + x))) := rfl
    rw [e, hpops]
    exact hpush _ _ (Uvm.wrap_inIsizeRange _)
  · have e : Uvm.execute_instruction (arithVM .Sub a b) =
        Uvm.push_from (arithVM .Sub a b) (fun x y => .ok (Uvm.wrap (y - x))) := rfl
    rw [e, hpops]
    exact hpush _ _ (Uvm.wrap_inIsizeRange _)
  · have e : Uvm.execute_instruction (arithVM .Mul a b) =
        Uvm.push_from (arithVM .Mul a b) (fun x y => .ok (Uvm.wrap (y * x))) := rfl
    rw [e, hpops]
    exact hpush _ _ (Uvm.wrap_inIsizeRange _)
  · intro h0
    have e : Uvm.execute_instruction (arithVM .Div a b) =
        Uvm.push_from (arithVM .Div a b)
          (fun x y => if x = 0 then .fault .DivByZero
            else if y = -(2 ^ 63) ∧ x = -1 then .crash else .ok (y.tdiv x)) := rfl
    rw [e, hpops, if_pos h0]
  · rfl

/-- C4 (witness): `1 + 2` wraps (trivially) to `3`; `10 / 0` faults with
the div-by-zero kind. -/
theorem c4_arith_amended_witness :
    Uvm.inIsizeRange 1 ∧ Uvm.inIsizeRange 2 ∧
    Uvm.execute_instruction (arithVM .Sum 1 2) = .ok (arithResult .Sum (Uvm.wrap (2 + 1))) ∧
    Uvm.execute_instruction (arithVM .Div 0 10) = .fault .DivByZero := by
  refine ⟨by decide, by decide, (c4_arith_amended 1 2 (by decide) (by decide)).1, ?_⟩
  exact (c4_arith_amended 0 10 (by decide) (by decide)).2.2.2.1 rfl

/-- C7 (amended): with at least two and fewer than 1024 stack elements,
`Eq` peeks the top two elements without removing them and pushes `Int 1`
or `Int 0` (this VM's `Value` has no `Uint`), growing the stack by exactly
one; with fewer than two elements it faults with the underflow kind. -/
theorem c7_eq_amended (vm : Uvm.VM)
    (hip : vm.inst_ptr < Uvm.CAPACITY)
    (hinst : (vm.program.getD vm.inst_ptr Uvm.instDefault).kind = .Eq) :
    (vm.stack_size < 2 → Uvm.execute_instruction vm = .fault .StackUnderflow) ∧
    (2 ≤ vm.stack_size → vm.stack_size < Uvm.CAPACITY →
      Uvm.execute_instruction vm =
        .ok { vm with
              stack := vm.stack.set vm.stack_size
                (if vm.stack.getD (vm.stack_size - 1) .Null =
                    vm.stack.getD (vm.stack_size - 2) .Null
                 then .Int 1 else .Int 0)
              stack_size := vm.stack_size + 1 }) := by
  have hexec : Uvm.execute_instruction vm =
      if vm.stack_size < 2 then .fault .StackUnderflow
      else
        match vm.stackRead (vm.stack_size - 1), vm.stackRead (vm.stack_size - 2) with
        | some a, some b => Uvm.stack_push vm (if a = b then .Int 1 else .Int 0)
        | _, _ => .crash := by
    rcases hI : vm.program.getD vm.inst_ptr Uvm.instDefault with ⟨k, op⟩
    rw [hI] at hinst
    have hk : k = .Eq := hinst
    subst hk
    unfold Uvm.execute_instruction
    rw [if_pos hip, hI]
  constructor
  · intro h2
    rw [hexec, if_pos h2]
  · intro h2 hcap
    have hr1 : vm.stackRead (vm.stack_size - 1) =
        some (vm.stack.getD (vm.stack_size - 1) .Null) := by
      unfold Uvm.VM.stackRead
      rw [if_pos (by omega)]
    have hr2 : vm.stackRead (vm.stack_size - 2) =
        some (vm.stack.getD (vm.stack_size - 2) .Null) := by
      unfold Uvm.VM.stackRead
      rw [if_pos (by omega)]
    rw [hexec, if_neg (by omega), hr1, hr2]
    show Uvm.stack_push vm
        (if vm.stack.getD (vm.stack_size - 1) .Null =
            vm.stack.getD (vm.stack_size - 2) .Null
         then .Int 1 else .Int 0) = _
    by_cases hab : vm.stack.getD (vm.stack_size - 1) .Null =
        vm.stack.getD (vm.stack_size - 2) .Null
    · rw [if_pos hab]
      exact Uvm.stack_push_int vm 1 (by decide) hcap
    · rw [if_neg hab]
      exact Uvm.stack_push_int vm 0 (by decide) hcap

/-- A stack `[5, 5]` about to execute `Eq`. -/
def c7wvm : Uvm.VM :=
  { Uvm.VM.load [⟨.Eq, .Null⟩] with
    stack := .Int 5 :: .Int 5 :: List.replicate 1022 .Null
    stack_size := 2 }

/-- C7 (witness): `Eq` over `[5, 5]` leaves both fives and pushes `Int 1`
on top. -/
theorem c7_eq_amended_witness :
    c7wvm.inst_ptr < Uvm.CAPACITY ∧
    (c7wvm.program.getD c7wvm.inst_ptr Uvm.instDefault).kind = .Eq ∧
    Uvm.execute_instruction c7wvm =
      .ok { c7wvm with
            stack := c7wvm.stack.set c7wvm.stack_size
              (if c7wvm.stack.getD (c7wvm.stack_size - 1) .Null =
                  c7wvm.stack.getD (c7wvm.stack_size - 2) .Null
               then .Int 1 else .Int 0)
            stack_size := c7wvm.stack_size + 1 } :=
  ⟨by decide, by rfl,
    (c7_eq_amended c7wvm (by decide) (by rfl)).2 (by decide) (by decide)⟩

/-- C6 (amended): label resolution scans the table in declaration order and
takes the first entry whose declared name **contains** the reference as a
substring; only when no declared name contains it does assembly fault
(unknown label) with no program returned.  Stated for a source that parses
to `неоп`, `крок` and a label reference `R` under a two-entry table. -/
theorem c6_label_amended (fp : List Char → Option Nat) (fd : Nat → List Char)
    (src R L1 L2 : List Char) (a1 a2 : Nat)
    (hparse : Usm.parse fp src =
      ([.inst .Nop false, .inst .Jump false, .labelExpand R], [(L1, a1), (L2, a2)])) :
    Usm.disassemble fp fd src =
      (if Str.containsStr L1 R then
        .ok [⟨.Nop, .Null, false⟩, ⟨.Jump, .Uint a1, false⟩]
      else if Str.containsStr L2 R then
        .ok [⟨.Nop, .Null, false⟩, ⟨.Jump, .Uint a2, false⟩]
      else .fault (.ParseError (Usm.msgUnknownLabel R .Jump))) := by
  have e : Usm.processToken fd [(L1, a1), (L2, a2)]
      [⟨.Nop, .Null, false⟩, ⟨.Jump, .Null, false⟩] (.labelExpand R) =
      match List.find? (fun l => Str.containsStr l.1 R) [(L1, a1), (L2, a2)] with
      | some l => .ok (Usm.setLastOperand
          [⟨.Nop, .Null, false⟩, ⟨.Jump, .Null, false⟩] (.Uint l.2))
      | none => .fault (.ParseError (Usm.msgUnknownLabel R .Jump)) := rfl
  unfold Usm.disassemble
  rw [hparse]
  have hsteps : Usm.processTokens fd [(L1, a1), (L2, a2)]
      [.inst .Nop false, .inst .Jump false, .labelExpand R] [] =
      match Usm.processToken fd [(L1, a1), (L2, a2)]
        [⟨.Nop, .Null, false⟩, ⟨.Jump, .Null, false⟩] (.labelExpand R) with
      | .ok prog' => .ok prog'
      | .fault p => .fault p
      | .crash => .crash := rfl
  show (match Usm.processTokens fd [(L1, a1), (L2, a2)]
      [.inst .Nop false, .inst .Jump false, .labelExpand R] [] with
    | .ok prog =>
      match prog.find? (fun i : Usm.Instruction => i.kind.hasOperand && i.operand.isNull) with
      | some e => Usm.Res.fault (.ParseError (Usm.msgMissingOperand e.kind))
      | none => .ok prog
    | .fault p => .fault p
    | .crash => .crash) = _
  rw [hsteps, e]
  cases hc1 : Str.containsStr L1 R with
  | true =>
    have hfind : List.find? (fun l => Str.containsStr l.1 R) [(L1, a1), (L2, a2)] =
        some (L1, a1) := by
      simp [List.find?, hc1]
    rw [hfind]
    rfl
  | false =>
    cases hc2 : Str.containsStr L2 R with
    | true =>
      have hfind : List.find? (fun l => Str.containsStr l.1 R) [(L1, a1), (L2, a2)] =
          some (L2, a2) := by
        simp [List.find?, hc1, hc2]
      rw [hfind]
      rfl
    | false =>
      have hfind : List.find? (fun l => Str.containsStr l.1 R) [(L1, a1), (L2, a2)] =
          none := by
        simp [List.find?, hc1, hc2]
      rw [hfind]
      rfl

/-- The source `ab:\nнеоп\ncd:\nкрок a`: labels `ab` (address 0) and `cd`
(address 1), and a jump through the reference `a`. -/
def c6wsrc : List Char := "ab:\nнеоп\ncd:\nкрок a".toList

/-- C6 (witness): under the table `[(ab, 0), (cd, 1)]` the reference `a`
resolves to address 0 — the first declared name containing it. -/
theorem c6_label_amended_witness :
    Usm.parse fp0 c6wsrc =
      ([.inst .Nop false, .inst .Jump false, .labelExpand ("a".toList)],
       [("ab".toList, 0), ("cd".toList, 1)]) ∧
    Usm.disassemble fp0 fd0 c6wsrc =
      .ok [⟨.Nop, .Null, false⟩, ⟨.Jump, .Uint 0, false⟩] := by
  have h := c6_label_amended fp0 fd0 c6wsrc ("a".toList) ("ab".toList) ("cd".toList)
    0 1 (by rfl)
  exact ⟨by rfl, by rw [h]; rfl⟩

namespace Str

/-- A word of non-whitespace characters followed by a space is emitted as
one token (the accumulator must not make the token empty). -/
theorem splitWsGo_word (t : List Char) : ∀ (acc s : List Char),
    (acc = [] → t ≠ []) → (∀ c ∈ t, isWhite c = false) →
    splitWsGo acc (t ++ ' ' :: s) = (acc.reverse ++ t) :: splitWsGo [] s := by
  induction t with
  | nil =>
    intro acc s hne _
    have hacc : acc ≠ [] := fun h => hne h rfl
    simp only [List.nil_append, splitWsGo, show isWhite ' ' = true from rfl, if_true]
    rw [if_neg (by simpa using hacc)]
    simp
  | cons c t ih =>
    intro acc s hne hws
    have hc : isWhite c = false := hws c (by simp)
    simp only [List.cons_append, splitWsGo, hc, Bool.false_eq_true, if_false,
      List.append_eq]
    rw [ih (c :: acc) s (by simp) (fun x hx => hws x (by simp [hx]))]
    simp

/-- A final word with no trailing separator is emitted as the last token. -/
theorem splitWsGo_last (t : List Char) : ∀ acc : List Char,
    (acc = [] → t ≠ []) → (∀ c ∈ t, isWhite c = false) →
    splitWsGo acc t = [acc.reverse ++ t] := by
  induction t with
  | nil =>
    intro acc hne _
    have hacc : acc ≠ [] := fun h => hne h rfl
    simp only [splitWsGo]
    rw [if_neg (by simpa using hacc)]
    simp
  | cons c t ih =>
    intro acc hne hws
    have hc : isWhite c = false := hws c (by simp)
    simp only [splitWsGo, hc, Bool.false_eq_true, if_false, List.append_eq]
    rw [ih (c :: acc) (by simp) (fun x hx => hws x (by simp [hx]))]
    simp

/-- `stripCr` leaves a line alone unless it ends in `'\r'`. -/
theorem stripCr_eq_self (l : List Char) (h : l.getLast? ≠ some '\r') :
    stripCr l = l := by
  unfold stripCr
  rw [if_neg h]

/-- A newline-free line followed by `'\n'` is emitted as one line. -/
theorem linesGo_line (l : List Char) : ∀ (acc s : List Char),
    (∀ c ∈ l, ¬c = '\n') →
    linesGo acc (l ++ '\n' :: s) = stripCr (acc.reverse ++ l) :: linesGo [] s := by
  induction l with
  | nil =>
    intro acc s _
    simp [linesGo]
  | cons c l ih =>
    intro acc s hnl
    have hc : ¬c = '\n' := hnl c (by simp)
    simp only [List.cons_append, linesGo, hc, if_false, List.append_eq]
    rw [ih (c :: acc) s (fun x hx => hnl x (by simp [hx]))]
    simp

/-- `lines` of a concatenation of `'\n'`-terminated, newline-free,
非-`'\r'`-final lines recovers exactly those lines. -/
theorem lines_flatten (L : List (List Char))
    (hnl : ∀ l ∈ L, ∀ c ∈ l, ¬c = '\n')
    (hcr : ∀ l ∈ L, l.getLast? ≠ some '\r') :
    lines ((L.map (fun l => l ++ ['\n'])).flatten) = L := by
  induction L with
  | nil => rfl
  | cons l L ih =>
    have h1 : ((l :: L).map (fun l => l ++ ['\n'])).flatten =
        l ++ '\n' :: (L.map (fun l => l ++ ['\n'])).flatten := by
      simp
    unfold lines
    rw [h1, linesGo_line l [] _ (hnl l (by simp))]
    rw [List.reverse_nil, List.nil_append,
      stripCr_eq_self l (hcr l (by simp))]
    have := ih (fun x hx => hnl x (by simp [hx])) (fun x hx => hcr x (by simp [hx]))
    unfold lines at this
    rw [this]

/-- `takeWhile` keeps a list all of whose elements satisfy the predicate. -/
theorem takeWhile_eq_self (p : Char → Bool) (l : List Char)
    (h : ∀ c ∈ l, p c = true) : l.takeWhile p = l := by
  induction l with
  | nil => rfl
  | cons c t ih =>
    have hc := h c (by simp)
    simp [List.takeWhile_cons, hc, ih (fun x hx => h x (by simp [hx]))]

/-- `trim` is the identity on whitespace-free words. -/
theorem trim_eq_self (w : List Char) (h : ∀ c ∈ w, isWhite c = false) :
    trim w = w := by
  have hdw : ∀ l : List Char, (∀ c ∈ l, isWhite c = false) → l.dropWhile isWhite = l := by
    intro l hl
    cases l with
    | nil => rfl
    | cons c t => simp [List.dropWhile_cons, hl c (by simp)]
  unfold trim
  rw [hdw w h, hdw w.reverse (by simpa using h), List.reverse_reverse]

/-- A word without `'_'` has no `rsplit_once` decomposition. -/
theorem rsplitOnce_eq_none (c : Char) (l : List Char) (h : ∀ x ∈ l, ¬x = c) :
    rsplitOnce c l = none := by
  unfold rsplitOnce
  rw [takeWhile_eq_self _ _ (by simpa using fun x hx => h x (by simpa using hx))]
  simp

end Str

namespace Str

/-- The ten decimal digit characters. -/
def digitChars : List Char := ['0', '1', '2', '3', '4', '5', '6', '7', '8', '9']

/-- `digitChar` lands in the digit alphabet. -/
theorem digitChar_mem : ∀ d < 10, digitChar d ∈ digitChars := by decide

/-- `digitChar` is inverted by the `FromStr` accumulation step. -/
theorem digitChar_toNat : ∀ d < 10, (digitChar d).toNat - 48 = d := by decide

/-- Character-class facts about the digit alphabet: digits are not
whitespace and are distinct from every marker character of the grammar. -/
theorem digit_safe : ∀ c ∈ digitChars, isWhite c = false ∧ c.isDigit = true ∧
    ¬c = '\n' ∧ ¬c = '\r' ∧ ¬c = '#' ∧ ¬c = '.' ∧ ¬c = '_' ∧ ¬c = ':' ∧
    ¬c = '?' ∧ ¬c = '-' ∧ ¬c = '+' := by decide

/-- An element picked by `getLast?` is a member. -/
theorem mem_of_getLast?_eq (l : List Char) (a : Char) (h : l.getLast? = some a) :
    a ∈ l := by
  have hx : a ∈ l.getLast? := by rw [h]; rfl
  obtain ⟨hne, heq⟩ := List.mem_getLast?_eq_getLast hx
  rw [heq]
  exact List.getLast_mem hne

/-- `natReprGo` at argument zero is empty for any fuel. -/
theorem natReprGo_zero : ∀ fuel, natReprGo fuel 0 = [] := by
  intro fuel
  cases fuel <;> rfl

/-- Every character of `natReprGo` is a digit. -/
theorem natReprGo_chars (fuel : Nat) : ∀ n, ∀ c ∈ natReprGo fuel n, c ∈ digitChars := by
  induction fuel with
  | zero => intro n c hc; simp [natReprGo] at hc
  | succ fuel ih =>
    intro n c hc
    by_cases hn : n = 0
    · simp [natReprGo, hn] at hc
    · rw [natReprGo, if_neg hn] at hc
      rcases List.mem_append.mp hc with h | h
      · exact ih _ c h
      · simp only [List.mem_singleton] at h
        subst h
        exact digitChar_mem _ (Nat.mod_lt _ (by norm_num))

/-- `natReprGo` is nonempty on nonzero arguments (with enough fuel). -/
theorem natReprGo_ne_nil (fuel n : Nat) (h : n ≠ 0) : natReprGo (fuel + 1) n ≠ [] := by
  rw [natReprGo, if_neg h]
  simp

/-- The `FromStr` digit fold inverts `natReprGo`. -/
theorem foldl_natReprGo (fuel : Nat) : ∀ n acc, n ≤ fuel → n ≠ 0 →
    List.foldl (fun acc c => 10 * acc + (c.toNat - 48)) acc (natReprGo fuel n) =
      acc * 10 ^ (natReprGo fuel n).length + n := by
  induction fuel with
  | zero => intro n acc h1 h2; omega
  | succ fuel ih =>
    intro n acc h1 h2
    rw [natReprGo, if_neg h2, List.foldl_append, List.length_append]
    have hd : (digitChar (n % 10)).toNat - 48 = n % 10 :=
      digitChar_toNat _ (Nat.mod_lt _ (by norm_num))
    by_cases h10 : n / 10 = 0
    · rw [h10, natReprGo_zero]
      simp only [List.foldl_nil, List.foldl_cons, List.length_nil, List.length_cons, hd]
      have : n % 10 = n := Nat.mod_eq_of_lt (by omega)
      simp [this]
      ring
    · have hle : n / 10 ≤ fuel := by
        have := Nat.div_lt_self (Nat.pos_of_ne_zero h2) (by norm_num : 1 < 10)
        omega
      rw [ih (n / 10) acc hle h10]
      simp only [List.foldl_cons, List.foldl_nil, List.length_cons, List.length_nil, hd]
      have hnm : 10 * (n / 10) + n % 10 = n := Nat.div_add_mod n 10
      ring_nf
      omega

/-- `parseNat` inverts `natRepr`. -/
theorem parseNat_natRepr (n : Nat) : parseNat (natRepr n) = some n := by
  by_cases hn : n = 0
  · subst hn; rfl
  · have hchars : ∀ c ∈ natRepr n, c ∈ digitChars := by
      intro c hc
      rw [natRepr, if_neg hn] at hc
      exact natReprGo_chars n n c hc
    have hne : natRepr n ≠ [] := by
      rw [natRepr, if_neg hn]
      obtain ⟨fuel, hfuel⟩ : ∃ fuel, n = fuel + 1 := ⟨n - 1, by omega⟩
      rw [hfuel]
      exact natReprGo_ne_nil fuel (fuel + 1) (by omega)
    unfold parseNat
    rw [if_pos]
    · rw [natRepr, if_neg hn, foldl_natReprGo n n 0 (le_refl n) hn]
      simp
    · refine ⟨hne, ?_⟩
      rw [List.all_eq_true]
      intro c hc
      exact ((digit_safe c (hchars c hc)).2).1

/-- Every character of `natRepr` is a digit. -/
theorem natRepr_chars (n : Nat) : ∀ c ∈ natRepr n, c ∈ digitChars := by
  intro c hc
  unfold natRepr at hc
  by_cases hn : n = 0
  · rw [if_pos hn] at hc
    simp only [List.mem_singleton] at hc
    subst hc
    decide
  · rw [if_neg hn] at hc
    exact natReprGo_chars n n c hc

/-- `natRepr` is never empty. -/
theorem natRepr_ne_nil (n : Nat) : natRepr n ≠ [] := by
  unfold natRepr
  by_cases hn : n = 0
  · rw [if_pos hn]; simp
  · rw [if_neg hn]
    obtain ⟨fuel, hfuel⟩ : ∃ fuel, n = fuel + 1 := ⟨n - 1, by omega⟩
    rw [hfuel]
    exact natReprGo_ne_nil fuel (fuel + 1) (by omega)

/-- Every character of `intRepr` is a digit or the leading minus sign. -/
theorem intRepr_chars (v : Int) : ∀ c ∈ intRepr v, c = '-' ∨ c ∈ digitChars := by
  intro c hc
  unfold intRepr at hc
  by_cases hv : v < 0
  · rw [if_pos hv] at hc
    rcases List.mem_cons.mp hc with h | h
    · exact Or.inl h
    · exact Or.inr (natRepr_chars _ c h)
  · rw [if_neg hv] at hc
    exact Or.inr (natRepr_chars _ c hc)

/-- `intRepr` is never empty. -/
theorem intRepr_ne_nil (v : Int) : intRepr v ≠ [] := by
  unfold intRepr
  by_cases hv : v < 0
  · rw [if_pos hv]; simp
  · rw [if_neg hv]; exact natRepr_ne_nil _

/-- The head of a decimal rendering of a `Nat` is a digit. -/
theorem natRepr_head_digit (n : Nat) (c : Char) (h : (natRepr n).head? = some c) :
    c ∈ digitChars := by
  have hmem : c ∈ natRepr n := by
    rcases he : natRepr n with _ | ⟨d, t⟩
    · exact absurd he (natRepr_ne_nil n)
    · rw [he] at h
      simp only [List.head?_cons, Option.some.injEq] at h
      simp [h]
  exact natRepr_chars n c hmem

/-- The last character of `intRepr` is a digit (the sign is never last). -/
theorem intRepr_last_digit (v : Int) (c : Char)
    (h : (intRepr v).getLast? = some c) : c ∈ digitChars := by
  rcases intRepr_chars v c (mem_of_getLast?_eq _ _ h) with hminus | hdig
  · exfalso
    subst hminus
    unfold intRepr at h
    by_cases hv : v < 0
    · rw [if_pos hv] at h
      rcases he : natRepr v.natAbs with _ | ⟨d, t⟩
      · exact absurd he (natRepr_ne_nil _)
      · rw [he] at h
        have e2 : ('-' :: d :: t).getLast? = (d :: t).getLast? := rfl
        rw [e2] at h
        have hd := natRepr_chars v.natAbs '-' (by
          rw [he]
          exact mem_of_getLast?_eq _ _ h)
        revert hd
        decide
    · rw [if_neg hv] at h
      have hd := natRepr_chars v.natAbs '-' (mem_of_getLast?_eq _ _ h)
      revert hd
      decide
  · exact hdig

/-- On sign-free input, `parseIsize` is the positive branch. -/
theorem parseIsize_of_digit_head (cs : List Char) (hne : cs ≠ [])
    (hd : ∀ c, cs.head? = some c → ¬c = '-' ∧ ¬c = '+') :
    parseIsize cs =
      (parseNat cs).bind fun n => if n < 2 ^ 63 then some (n : Int) else none := by
  unfold parseIsize
  rcases cs with _ | ⟨c, t⟩
  · exact absurd rfl hne
  · obtain ⟨hm, hp⟩ := hd c rfl
    rw [if_neg (by simpa using hm), if_neg (by simpa using hp)]

/-- `parseIsize` inverts `intRepr` on the `isize` range. -/
theorem parseIsize_intRepr (v : Int) (h1 : -(2 ^ 63) ≤ v) (h2 : v < 2 ^ 63) :
    parseIsize (intRepr v) = some v := by
  by_cases hv : v < 0
  · have he : intRepr v = '-' :: natRepr v.natAbs := by
      unfold intRepr
      rw [if_pos hv]
    have e2 : parseIsize ('-' :: natRepr v.natAbs) =
        (parseNat (natRepr v.natAbs)).bind
          fun n => if n ≤ 2 ^ 63 then some (-(n : Int)) else none := rfl
    rw [he, e2, parseNat_natRepr]
    simp only [Option.some_bind]
    rw [if_pos (by omega)]
    congr 1
    omega
  · have he : intRepr v = natRepr v.natAbs := by
      unfold intRepr
      rw [if_neg hv]
    rw [he, parseIsize_of_digit_head _ (natRepr_ne_nil _) (fun c hc => by
      have := digit_safe c (natRepr_head_digit _ c hc)
      tauto)]
    rw [parseNat_natRepr]
    simp only [Option.some_bind]
    rw [if_pos (by omega)]
    congr 1
    omega

end Str

namespace Usm

open Str

/-- Is the value an `Int` within the `isize` range?  (The range bound is the
representation invariant of the Rust `isize` payload.) -/
def intInRange : Value → Bool
  | .Int v => decide (-(2 ^ 63) ≤ v ∧ v < 2 ^ 63)
  | _ => false

/-- Well-formed instruction for the round-trip law: operand-taking opcodes
carry an in-range `Int`, the rest carry `Null`. -/
def WfInst (i : Instruction) : Bool :=
  if i.kind.hasOperand then intInRange i.operand else i.operand.isNull

/-- The mnemonic word the printer emits for an instruction (with the
conditional `'?'` suffix). -/
def mnemTok (i : Instruction) : List Char :=
  kindDisplay i.kind ++ (if i.conditional then ['?'] else [])

/-- The words the printer emits for one instruction. -/
def wordGroup (fd : Nat → List Char) (i : Instruction) : List (List Char) :=
  mnemTok i :: (if i.kind.hasOperand then [valueDisplay fd i.operand] else [])

/-- The tokens `parse` classifies those words into. -/
def tokGroup (i : Instruction) : List Token :=
  Token.inst i.kind i.conditional ::
    (if i.kind.hasOperand then [Token.value i.operand] else [])

/-- The mnemonic table inverts the printer. -/
theorem tryParse_kindDisplay (k : InstructionKind) :
    InstructionKind.tryParse (kindDisplay k) = some k := by
  cases k <;> rfl

/-- Mnemonics are nonempty. -/
theorem kindDisplay_ne_nil (k : InstructionKind) : kindDisplay k ≠ [] := by
  cases k <;> simp [kindDisplay]

/-- Character-class facts about mnemonic spellings. -/
theorem kindDisplay_chars (k : InstructionKind) :
    ∀ c ∈ kindDisplay k, isWhite c = false ∧ ¬c = '\n' ∧ ¬c = '\r' ∧
      ¬c = '#' ∧ ¬c = '.' ∧ ¬c = '_' ∧ ¬c = ':' ∧ ¬c = '?' := by
  cases k <;> decide

/-- No mnemonic is a literal value, whatever the float parser does. -/
theorem tryParse_value_kindDisplay (fp : List Char → Option Nat)
    (k : InstructionKind) : Value.tryParse fp (kindDisplay k) = none := by
  cases k <;> rfl

/-- An operand-taking opcode is never `Nop`. -/
theorem hasOperand_ne_nop (k : InstructionKind) (h : k.hasOperand = true) :
    ¬k = .Nop := by
  cases k <;> simp_all [InstructionKind.hasOperand]

/-- `List.contains` is false when the element is absent. -/
theorem containsChar_eq_false (l : List Char) (x : Char)
    (h : ∀ c ∈ l, ¬c = x) : containsChar l x = false := by
  unfold containsChar
  induction l with
  | nil => rfl
  | cons c t ih =>
    have hc : ¬c = x := h c (by simp)
    simp only [List.contains_cons, Bool.or_eq_false_iff]
    constructor
    · simpa using fun hcx => hc (by simpa using hcx.symm)
    · exact ih (fun d hd => h d (by simp [hd]))

/-- `Value.tryParse` on a rendered in-range `Int` recovers exactly it. -/
theorem tryParse_value_intRepr (fp : List Char → Option Nat) (v : Int)
    (h1 : -(2 ^ 63) ≤ v) (h2 : v < 2 ^ 63) :
    Value.tryParse fp (intRepr v) = some (.Int v) := by
  have hchars := intRepr_chars v
  have hsafe : ∀ c ∈ intRepr v, isWhite c = false ∧ ¬c = '.' ∧ ¬c = '_' := by
    intro c hc
    rcases hchars c hc with hm | hd
    · subst hm
      decide
    · have := digit_safe c hd
      tauto
  have htrim : trim (intRepr v) = intRepr v :=
    trim_eq_self _ (fun c hc => (hsafe c hc).1)
  unfold Value.tryParse
  simp only [htrim]
  rw [containsChar_eq_false _ _ (fun c hc => (hsafe c hc).2.1)]
  rw [if_neg (by simp)]
  rw [rsplitOnce_eq_none '_' _ (fun c hc => (hsafe c hc).2.2)]
  rw [parseIsize_intRepr v h1 h2]
  rfl

/-- Facts about the full mnemonic token (with optional `'?'`): nonempty,
whitespace-free, free of `'\n'`/`'\r'`/`'#'`/`'.'`/`'_'`, and not ending in
`':'`. -/
theorem mnemTok_chars (i : Instruction) :
    ∀ c ∈ mnemTok i, isWhite c = false ∧ ¬c = '\n' ∧ ¬c = '\r' ∧
      ¬c = '#' ∧ ¬c = '.' ∧ ¬c = '_' ∧ ¬c = ':' := by
  intro c hc
  unfold mnemTok at hc
  rcases List.mem_append.mp hc with h | h
  · have := kindDisplay_chars i.kind c h
    tauto
  · rcases hcond : i.conditional with _ | _
    · rw [hcond] at h
      simp at h
    · rw [hcond] at h
      simp only [if_true, List.mem_singleton] at h
      subst h
      decide

/-- The mnemonic token is nonempty. -/
theorem mnemTok_ne_nil (i : Instruction) : mnemTok i ≠ [] := by
  unfold mnemTok
  intro h
  rcases List.append_eq_nil.mp h with ⟨h1, _⟩
  exact kindDisplay_ne_nil i.kind h1

/-- The printer's line for one well-formed instruction splits into its word
group. -/
theorem splitWs_instDisplay (fd : Nat → List Char) (i : Instruction)
    (hwf : WfInst i = true) :
    splitWs (instDisplay fd i) = wordGroup fd i := by
  have hm1 : ∀ c ∈ mnemTok i, isWhite c = false :=
    fun c hc => (mnemTok_chars i c hc).1
  have hshape : instDisplay fd i = mnemTok i ++ ' ' :: valueDisplay fd i.operand := by
    unfold instDisplay mnemTok
    simp [List.append_assoc]
  rcases hop : i.kind.hasOperand with _ | _
  · have hnull : i.operand = .Null := by
      unfold WfInst at hwf
      rw [hop] at hwf
      rcases ho : i.operand <;> rw [ho] at hwf <;> simp_all [Value.isNull]
    unfold splitWs
    rw [hshape, hnull]
    show splitWsGo [] (mnemTok i ++ ' ' :: []) = _
    rw [splitWsGo_word (mnemTok i) [] [] (fun _ => mnemTok_ne_nil i) hm1]
    unfold wordGroup
    rw [hop]
    rfl
  · have hint : ∃ v : Int, i.operand = .Int v ∧ -(2 ^ 63) ≤ v ∧ v < 2 ^ 63 := by
      unfold WfInst at hwf
      rw [hop] at hwf
      rcases ho : i.operand with b | v | n | _ <;> rw [ho] at hwf
      · simp [intInRange] at hwf
      · exact ⟨v, rfl, of_decide_eq_true hwf⟩
      · simp [intInRange] at hwf
      · simp [intInRange] at hwf
    obtain ⟨v, hv, hr1, hr2⟩ := hint
    have hvd : valueDisplay fd i.operand = intRepr v := by
      rw [hv]
      rfl
    have hdig : ∀ c ∈ intRepr v, isWhite c = false := by
      intro c hc
      rcases intRepr_chars v c hc with h | h
      · subst h; decide
      · exact (digit_safe c h).1
    unfold splitWs
    rw [hshape, hvd]
    rw [splitWsGo_word (mnemTok i) [] (intRepr v) (fun _ => mnemTok_ne_nil i) hm1]
    rw [show splitWsGo [] (intRepr v) = [[].reverse ++ intRepr v] from
      splitWsGo_last (intRepr v) [] (fun _ => intRepr_ne_nil v) hdig]
    unfold wordGroup
    rw [hop, hvd]
    rfl

/-- Every character of a printed instruction line is line-safe: no newline,
no carriage return, no comment marker. -/
theorem instDisplay_chars (fd : Nat → List Char) (i : Instruction)
    (hwf : WfInst i = true) :
    ∀ c ∈ instDisplay fd i, ¬c = '\n' ∧ ¬c = '\r' ∧ ¬c = '#' := by
  have hshape : instDisplay fd i = mnemTok i ++ ' ' :: valueDisplay fd i.operand := by
    unfold instDisplay mnemTok
    simp [List.append_assoc]
  have hvd : ∀ c ∈ valueDisplay fd i.operand, ¬c = '\n' ∧ ¬c = '\r' ∧ ¬c = '#' := by
    rcases hop : i.kind.hasOperand with _ | _
    · have hnull : i.operand = .Null := by
        unfold WfInst at hwf
        rw [hop] at hwf
        rcases ho : i.operand <;> rw [ho] at hwf <;> simp_all [Value.isNull]
      rw [hnull]
      intro c hc
      simp [valueDisplay] at hc
    · have hint : ∃ v : Int, i.operand = .Int v := by
        unfold WfInst at hwf
        rw [hop] at hwf
        rcases ho : i.operand with b | v | n | _ <;> rw [ho] at hwf
        · simp [intInRange] at hwf
        · exact ⟨v, rfl⟩
        · simp [intInRange] at hwf
        · simp [intInRange] at hwf
      obtain ⟨v, hv⟩ := hint
      rw [hv]
      intro c hc
      rcases intRepr_chars v c hc with h | h
      · subst h; decide
      · have := digit_safe c h
        tauto
  intro c hc
  rw [hshape] at hc
  rcases List.mem_append.mp hc with h | h
  · have := mnemTok_chars i c h
    tauto
  · rcases List.mem_cons.mp h with h | h
    · subst h; decide
    · exact hvd c h

/-- A printed instruction line never ends in `'\r'`. -/
theorem instDisplay_getLast (fd : Nat → List Char) (i : Instruction)
    (hwf : WfInst i = true) : (instDisplay fd i).getLast? ≠ some '\r' := by
  intro h
  exact ((instDisplay_chars fd i hwf '\r' (mem_of_getLast?_eq _ _ h)).2).1 rfl

/-- A printed instruction line is not a comment line. -/
theorem startsWithHash_instDisplay (fd : Nat → List Char) (i : Instruction) :
    startsWithHash (instDisplay fd i) = false := by
  rcases hm : kindDisplay i.kind with _ | ⟨c, t⟩
  · exact absurd hm (kindDisplay_ne_nil i.kind)
  · have hc : isWhite c = false ∧ ¬c = '#' := by
      have := kindDisplay_chars i.kind c (by rw [hm]; simp)
      tauto
    have hshape : instDisplay fd i =
        c :: (t ++ (if i.conditional then ['?'] else []) ++ ' '
          :: valueDisplay fd i.operand) := by
      unfold instDisplay
      rw [hm]
      simp [List.append_assoc]
    rw [hshape]
    unfold startsWithHash
    rw [List.dropWhile_cons]
    rw [hc.1]
    simp only [Bool.false_eq_true, if_false]
    simpa using hc.2

/-- Comment stripping leaves a printed line unchanged. -/
theorem stripComment_instDisplay (fd : Nat → List Char) (i : Instruction)
    (hwf : WfInst i = true) : stripComment (instDisplay fd i) = instDisplay fd i := by
  unfold stripComment
  apply takeWhile_eq_self
  intro c hc
  have := (instDisplay_chars fd i hwf c hc).2.2
  simp [this]

/-- The word stream of a printed program is the concatenation of the word
groups of its instructions. -/
theorem tokenStream_assemble (fd : Nat → List Char) (p : List Instruction)
    (hwf : ∀ i ∈ p, WfInst i = true) :
    tokenStream (assemble fd p) = p.flatMap (wordGroup fd) := by
  unfold tokenStream assemble
  have hmm : p.map (fun i => instDisplay fd i ++ ['\n']) =
      (p.map (instDisplay fd)).map (fun l => l ++ ['\n']) := by
    rw [List.map_map]
    rfl
  rw [hmm, lines_flatten (p.map (instDisplay fd))
    (by
      intro l hl c hc
      obtain ⟨i, hi, rfl⟩ := List.mem_map.mp hl
      exact (instDisplay_chars fd i (hwf i hi) c hc).1)
    (by
      intro l hl
      obtain ⟨i, hi, rfl⟩ := List.mem_map.mp hl
      exact instDisplay_getLast fd i (hwf i hi))]
  rw [List.filter_eq_self.mpr (by
    intro l hl
    obtain ⟨i, hi, rfl⟩ := List.mem_map.mp hl
    rw [startsWithHash_instDisplay fd i]
    rfl)]
  have hsc : (p.map (instDisplay fd)).map stripComment = p.map (instDisplay fd) := by
    rw [List.map_map]
    exact List.map_congr_left (fun i hi => stripComment_instDisplay fd i (hwf i hi))
  rw [hsc]
  clear hmm hsc
  induction p with
  | nil => rfl
  | cons i p ih =>
    simp only [List.map_cons, List.flatMap_cons]
    rw [splitWs_instDisplay fd i (hwf i (by simp))]
    rw [ih (fun j hj => hwf j (by simp [hj]))]

end Usm

namespace Str

/-- `strip_suffix` misses when the character never occurs. -/
theorem stripSuffix_eq_none (c : Char) (l : List Char) (h : ∀ x ∈ l, ¬x = c) :
    stripSuffix c l = none := by
  unfold stripSuffix
  rw [if_neg]
  intro hyp
  exact h c (mem_of_getLast?_eq _ _ hyp) rfl

end Str

namespace Usm

open Str

/-- A well-formed operand-taking instruction carries an in-range `Int`. -/
theorem WfInst_int (i : Instruction) (hwf : WfInst i = true)
    (hop : i.kind.hasOperand = true) :
    ∃ v : Int, i.operand = .Int v ∧ -(2 ^ 63) ≤ v ∧ v < 2 ^ 63 := by
  unfold WfInst at hwf
  rw [hop] at hwf
  rcases ho : i.operand with b | v | n | _ <;> rw [ho] at hwf
  · simp [intInRange] at hwf
  · exact ⟨v, rfl, of_decide_eq_true hwf⟩
  · simp [intInRange] at hwf
  · simp [intInRange] at hwf

/-- A well-formed operand-free instruction carries `Null`. -/
theorem WfInst_null (i : Instruction) (hwf : WfInst i = true)
    (hop : i.kind.hasOperand = false) : i.operand = .Null := by
  unfold WfInst at hwf
  rw [hop] at hwf
  rcases ho : i.operand <;> rw [ho] at hwf <;> simp_all [Value.isNull]

/-- Character-class facts about a rendered integer operand. -/
theorem intRepr_safe (v : Int) : ∀ c ∈ intRepr v,
    isWhite c = false ∧ ¬c = ':' ∧ ¬c = '?' := by
  intro c hc
  rcases intRepr_chars v c hc with h | h
  · subst h; decide
  · have := digit_safe c h
    tauto

/-- The tokenizer classifies the word stream of a well-formed program into
its token groups and records no labels. -/
theorem parseGo_wordGroups (fp : List Char → Option Nat) (fd : Nat → List Char)
    (p : List Instruction) : ∀ cnt : Nat, (∀ i ∈ p, WfInst i = true) →
    parseGo fp cnt (p.flatMap (wordGroup fd)) = (p.flatMap tokGroup, []) := by
  induction p with
  | nil => intro cnt _; rfl
  | cons i p ih =>
    intro cnt hwf
    have hwfi := hwf i (by simp)
    have hwfp : ∀ j ∈ p, WfInst j = true := fun j hj => hwf j (by simp [hj])
    have htrim : trim (mnemTok i) = mnemTok i :=
      trim_eq_self _ (fun c hc => (mnemTok_chars i c hc).1)
    have hcolon : stripSuffix ':' (mnemTok i) = none :=
      stripSuffix_eq_none _ _ (fun c hc => (mnemTok_chars i c hc).2.2.2.2.2.2)
    rcases hop : i.kind.hasOperand with _ | _
    · have hflat : (i :: p).flatMap (wordGroup fd) =
          mnemTok i :: p.flatMap (wordGroup fd) := by
        simp [wordGroup, hop]
      have hflat2 : (i :: p).flatMap tokGroup =
          Token.inst i.kind i.conditional :: p.flatMap tokGroup := by
        simp [tokGroup, hop]
      rw [hflat, hflat2]
      rcases hcond : i.conditional with _ | _
      · have hmnem : mnemTok i = kindDisplay i.kind := by
          unfold mnemTok
          rw [hcond]
          simp
        rw [hmnem] at htrim hcolon ⊢
        have hq : stripSuffix '?' (kindDisplay i.kind) = none :=
          stripSuffix_eq_none _ _
            (fun c hc => (kindDisplay_chars i.kind c hc).2.2.2.2.2.2.2)
        simp only [parseGo, htrim, hcolon, hq, tryParse_value_kindDisplay fp i.kind,
          tryParse_kindDisplay]
        rw [ih (cnt + 1) hwfp]
      · have hq : stripSuffix '?' (mnemTok i) = some (kindDisplay i.kind) := by
          unfold stripSuffix mnemTok
          rw [hcond]
          simp only [if_true]
          rw [List.getLast?_concat, if_pos rfl, List.dropLast_concat]
        simp only [parseGo, htrim, hcolon, hq, tryParse_kindDisplay]
        rw [ih cnt hwfp]
    · obtain ⟨v, hv, hr1, hr2⟩ := WfInst_int i hwfi hop
      have hflat : (i :: p).flatMap (wordGroup fd) =
          mnemTok i :: intRepr v :: p.flatMap (wordGroup fd) := by
        simp only [List.flatMap_cons, wordGroup, hop, if_true]
        rw [hv]
        rfl
      have hflat2 : (i :: p).flatMap tokGroup =
          Token.inst i.kind i.conditional :: Token.value i.operand ::
            p.flatMap tokGroup := by
        simp [tokGroup, hop]
      have htrim2 : trim (intRepr v) = intRepr v :=
        trim_eq_self _ (fun c hc => (intRepr_safe v c hc).1)
      have hcolon2 : stripSuffix ':' (intRepr v) = none :=
        stripSuffix_eq_none _ _ (fun c hc => (intRepr_safe v c hc).2.1)
      have hq2 : stripSuffix '?' (intRepr v) = none :=
        stripSuffix_eq_none _ _ (fun c hc => (intRepr_safe v c hc).2.2)
      have hval2 : Value.tryParse fp (intRepr v) = some (.Int v) :=
        tryParse_value_intRepr fp v hr1 hr2
      have hvtok : (Value.Int v) = i.operand := hv.symm
      rw [hflat, hflat2]
      rcases hcond : i.conditional with _ | _
      · have hmnem : mnemTok i = kindDisplay i.kind := by
          unfold mnemTok
          rw [hcond]
          simp
        rw [hmnem] at htrim hcolon ⊢
        have hq : stripSuffix '?' (kindDisplay i.kind) = none :=
          stripSuffix_eq_none _ _
            (fun c hc => (kindDisplay_chars i.kind c hc).2.2.2.2.2.2.2)
        simp only [parseGo, htrim, hcolon, hq, tryParse_value_kindDisplay fp i.kind,
          tryParse_kindDisplay, htrim2, hcolon2, hq2, hval2, hvtok]
        rw [ih (cnt + 1) hwfp]
      · have hq : stripSuffix '?' (mnemTok i) = some (kindDisplay i.kind) := by
          unfold stripSuffix mnemTok
          rw [hcond]
          simp only [if_true]
          rw [List.getLast?_concat, if_pos rfl, List.dropLast_concat]
        simp only [parseGo, htrim, hcolon, hq, tryParse_kindDisplay, htrim2,
          hcolon2, hq2, hval2, hvtok]
        rw [ih cnt hwfp]

/-- The back-fill loop rebuilds exactly the printed program. -/
theorem processTokens_tokGroups (fd : Nat → List Char)
    (labels : List (List Char × Nat)) (p : List Instruction) :
    ∀ acc : List Instruction, (∀ i ∈ p, WfInst i = true) →
      acc.length + p.length ≤ 1024 →
      processTokens fd labels (p.flatMap tokGroup) acc = .ok (acc ++ p) := by
  induction p with
  | nil =>
    intro acc _ _
    simp [processTokens]
  | cons i p ih =>
    intro acc hwf hlen
    have hwfp : ∀ j ∈ p, WfInst j = true := fun j hj => hwf j (by simp [hj])
    have hlen' : acc.length < 1024 := by
      simp only [List.length_cons] at hlen
      omega
    have hpush : processToken fd labels acc (.inst i.kind i.conditional) =
        .ok (acc ++ [(⟨i.kind, .Null, i.conditional⟩ : Instruction)]) := by
      have e0 : processToken fd labels acc (.inst i.kind i.conditional) =
          if acc.length < 1024
          then .ok (acc ++ [(⟨i.kind, .Null, i.conditional⟩ : Instruction)])
          else .crash := rfl
      rw [e0, if_pos hlen']
    have hacc1 : (acc ++ [(⟨i.kind, .Null, i.conditional⟩ : Instruction)]).length +
        p.length ≤ 1024 := by
      simp only [List.length_append, List.length_cons, List.length_nil] at hlen ⊢
      omega
    rcases hop : i.kind.hasOperand with _ | _
    · have hnull := WfInst_null i (hwf i (by simp)) hop
      have hi : (⟨i.kind, .Null, i.conditional⟩ : Instruction) = i := by
        rw [← hnull]
      have hflat : (i :: p).flatMap tokGroup =
          Token.inst i.kind i.conditional :: p.flatMap tokGroup := by
        simp [tokGroup, hop]
      rw [hflat]
      simp only [processTokens]
      rw [hpush, hi]
      show processTokens fd labels (p.flatMap tokGroup) (acc ++ [i]) = _
      rw [ih (acc ++ [i]) hwfp (by
        simp only [List.length_append, List.length_cons, List.length_nil] at hlen ⊢
        omega)]
      simp
    · obtain ⟨v, hv, _, _⟩ := WfInst_int i (hwf i (by simp)) hop
      have hflat : (i :: p).flatMap tokGroup =
          Token.inst i.kind i.conditional :: Token.value i.operand ::
            p.flatMap tokGroup := by
        simp [tokGroup, hop]
      have hlast : (acc ++ [(⟨i.kind, .Null, i.conditional⟩ : Instruction)]).getLast?.getD
          instDefault = ⟨i.kind, .Null, i.conditional⟩ := by
        rw [List.getLast?_concat]
        rfl
      have hset : processToken fd labels
          (acc ++ [(⟨i.kind, .Null, i.conditional⟩ : Instruction)])
          (.value i.operand) = .ok (acc ++ [i]) := by
        have e0 : processToken fd labels
            (acc ++ [(⟨i.kind, .Null, i.conditional⟩ : Instruction)])
            (.value i.operand) =
            (if ((acc ++ [(⟨i.kind, .Null, i.conditional⟩ : Instruction)]).getLast?.getD
                instDefault).kind = .Nop
             then .fault (.ParseError (msgNoInstValue fd i.operand))
             else if ((acc ++ [(⟨i.kind, .Null, i.conditional⟩ :
                Instruction)]).getLast?.getD instDefault).kind.hasOperand
             then .ok (setLastOperand
                (acc ++ [(⟨i.kind, .Null, i.conditional⟩ : Instruction)]) i.operand)
             else .fault (.ParseError (msgUnexpectedValue fd i.operand
                ((acc ++ [(⟨i.kind, .Null, i.conditional⟩ :
                  Instruction)]).getLast?.getD instDefault).kind))) := rfl
        rw [e0, hlast]
        rw [if_neg (by simpa using hasOperand_ne_nop i.kind hop)]
        rw [if_pos (by simpa using hop)]
        unfold setLastOperand
        rw [hlast, List.dropLast_concat]
      rw [hflat]
      simp only [processTokens]
      rw [hpush]
      show (match processToken fd labels
          (acc ++ [(⟨i.kind, .Null, i.conditional⟩ : Instruction)])
          (.value i.operand) with
        | .ok prog' => processTokens fd labels (p.flatMap tokGroup) prog'
        | .fault q => .fault q
        | .crash => .crash) = _
      rw [hset]
      show processTokens fd labels (p.flatMap tokGroup) (acc ++ [i]) = _
      rw [ih (acc ++ [i]) hwfp (by
        simp only [List.length_append, List.length_cons, List.length_nil] at hlen ⊢
        omega)]
      simp

/-- No well-formed instruction trips the missing-operand check. -/
theorem find?_null_none (p : List Instruction)
    (hwf : ∀ i ∈ p, WfInst i = true) :
    p.find? (fun i => i.kind.hasOperand && i.operand.isNull) = none := by
  rw [List.find?_eq_none]
  intro i hi
  rcases hop : i.kind.hasOperand with _ | _
  · simp [hop]
  · obtain ⟨v, hv, _, _⟩ := WfInst_int i (hwf i hi) hop
    simp [hop, hv, Value.isNull]

end Usm

/-- C2 (amended): assembling the pretty-printed text of a well-formed
program — at most 1024 instructions, `Int` operands in the `isize` range on
operand-taking opcodes, `Null` elsewhere — reproduces the program exactly:
opcodes, operand values and conditional flags all survive the round trip.
(The rendering carries no type suffix, so `Uint`/`Float` operands would
not survive; see the counterexample.) -/
theorem c2_roundtrip_int_amended (fp : List Char → Option Nat)
    (fd : Nat → List Char) (p : List Usm.Instruction)
    (hlen : p.length ≤ 1024) (hwf : ∀ i ∈ p, Usm.WfInst i = true) :
    Usm.disassemble fp fd (Usm.assemble fd p) = .ok p := by
  unfold Usm.disassemble Usm.parse
  rw [Usm.tokenStream_assemble fd p hwf]
  rw [Usm.parseGo_wordGroups fp fd p 0 hwf]
  show (match Usm.processTokens fd [] (p.flatMap Usm.tokGroup) [] with
    | .ok prog =>
      match prog.find? (fun i : Usm.Instruction =>
          i.kind.hasOperand && i.operand.isNull) with
      | some e => Usm.Res.fault (.ParseError (Usm.msgMissingOperand e.kind))
      | none => .ok prog
    | .fault q => .fault q
    | .crash => .crash) = _
  rw [Usm.processTokens_tokGroups fd [] p [] hwf (by simpa using hlen)]
  show (match p.find? (fun i : Usm.Instruction =>
      i.kind.hasOperand && i.operand.isNull) with
    | some e => Usm.Res.fault (.ParseError (Usm.msgMissingOperand e.kind))
    | none => .ok p) = _
  rw [Usm.find?_null_none p hwf]

/-- C2 (witness): the program `клади 7` / `сума?` (an `Int` operand and a
conditional no-operand instruction) survives the print/assemble round
trip. -/
theorem c2_roundtrip_int_amended_witness :
    (([⟨.Push, .Int 7, false⟩, ⟨.Sum, .Null, true⟩] : List Usm.Instruction).all
      (fun i => Usm.WfInst i) = true) ∧
    Usm.disassemble fp0 fd0 (Usm.assemble fd0
      [⟨.Push, .Int 7, false⟩, ⟨.Sum, .Null, true⟩]) =
      .ok [⟨.Push, .Int 7, false⟩, ⟨.Sum, .Null, true⟩] :=
  ⟨by decide, c2_roundtrip_int_amended fp0 fd0 _ (by decide) (by decide)⟩
